import Mathlib

/-!
Verification of the reconciliation engine and signal/timer substrate of the
hair UI library, shallowly embedded from the JavaScript sources.

The embedding covers:
* `hair.core.js` — the watch/signal substrate, the consolidated frame/timer
  dispatcher (`_animationFrame`), and the disposal registry
  (`markObjectAsDisposed` / `isObjectDisposed`);
* `hair.html.js` — the render engine: `RenderContext` (update / clear /
  dispose / commit / broadcast / get / set), `RenderPhase` (find,
  findOrCreateElement, findOrCreateSubContext, findCreateOrUpdateText,
  findOrCreateDOMListener, findOrCreateContextListener, addAttachment), and
  the attachment classes with their `remove` cascades;
* the `element` specification constructor with its flexible-argument loop.

Modelling conventions:
* JavaScript object references are modelled by natural-number identities drawn
  from a single allocation counter (`Eng.nextId`); JS reference equality (and
  the loose `!=` used on identity keys, which on the key values used here —
  strings, objects, null — agrees with reference/value equality) becomes
  decidable equality on `JSVal`.
* The DOM is a store mapping a parent node id to its ordered list of child
  ids.  `insertBefore` with an anchor that is not a child appends (the engine
  only passes live anchors on the executions considered here).
* Contexts are inline values; the `parentContext` back-pointer is only read by
  `get`/`set`, which are modelled separately on ancestor chains (`CtxChain`).
* User callbacks (lifecycle listeners, DOM listeners, watch actions) are
  opaque: invoking one is recorded as a trace event rather than run as code.
* Element property application is recorded as a single `setProps` trace event;
  the per-property handler table mutates only the DOM node, never the
  attachment lists reconciliation works on.
* The mutually recursive render pass is driven by explicit fuel; `.error
  "fuel"` marks exhaustion, `.error msg` a thrown JS `Error(msg)`.
-/

namespace Hair

/-- JS values appearing in identity-key tuples: null, numbers, strings and
object references (DOM nodes, contexts, state objects, arrays). -/
inductive JSVal : Type where
  | nullV : JSVal
  | num (n : Int) : JSVal
  | str (s : String) : JSVal
  | objRef (id : Nat) : JSVal
deriving DecidableEq, Repr

-- ---------------------------------------------------------------------------
-- hair.core.js : disposal registry, watch/signal, frame dispatcher
-- ---------------------------------------------------------------------------

/-- `isObjectDisposed(obj)`: falsy owners (undefined) are never disposed;
otherwise membership in the dispose set. -/
def ownerDisposed (disposed : List Nat) (owner : Option Nat) : Bool :=
  match owner with
  | none => false
  | some o => disposed.contains o

/-- One entry of the watch system: a watcher registered on `object` with an
optional `owner` (the action callback is opaque and identified by the entry
itself). -/
structure WatcherV where
  object : Nat
  owner : Option Nat
deriving DecidableEq, Repr

/-- `watchMap.has(object)`: the watch map holds an entry for an object exactly
while some watcher on it is registered (watch creates the entry non-empty,
removeWatcher deletes it when the list empties). -/
def hasWatch (ws : List WatcherV) (obj : Nat) : Bool :=
  ws.any (fun w => w.object == obj)

/-- `signal(object, ...)` from hair.core.js: bail out when the object has no
watch entry or is itself disposed; otherwise invoke every watcher whose owner
is not disposed.  The result is the list of watchers whose action runs. -/
def signalInvoked (ws : List WatcherV) (disposed : List Nat) (obj : Nat) :
    List WatcherV :=
  if !(hasWatch ws obj) || disposed.contains obj then []
  else (ws.filter (fun w => w.object == obj)).filter
    (fun w => !(ownerDisposed disposed w.owner))

/-- A `DelayedAction`: scheduled time, optional owner, optional repeat period
(seconds) and dispatch phase.  The action callback is opaque; `id` is the
object identity of the action. -/
structure DAct where
  id : Nat
  time : Int
  owner : Option Nat
  rep : Option Int
  phase : Int
deriving DecidableEq, Repr

/-- Stable insertion into a list sorted by descending time (equal keys keep
the existing element first), matching the stable JS
`sort((a, b) => b.time - a.time)`. -/
def insertTimeDesc (x : DAct) : List DAct → List DAct
  | [] => [x]
  | y :: ys => if x.time ≤ y.time then y :: insertTimeDesc x ys else x :: y :: ys

/-- Stable sort by descending time. -/
def sortTimeDesc (l : List DAct) : List DAct :=
  l.foldl (fun acc x => insertTimeDesc x acc) []

/-- Stable insertion into a list sorted by ascending phase. -/
def insertPhaseAsc (x : DAct) : List DAct → List DAct
  | [] => [x]
  | y :: ys => if y.phase ≤ x.phase then y :: insertPhaseAsc x ys else x :: y :: ys

/-- Stable sort by ascending phase, matching the stable JS
`sort((a, b) => a.phase - b.phase)`. -/
def sortPhaseAsc (l : List DAct) : List DAct :=
  l.foldl (fun acc x => insertPhaseAsc x acc) []

/-- Due predicate of the pop loop: `delayedActions[last].time <= frameStartTime`. -/
def dueBy (now : Int) (a : DAct) : Bool := a.time ≤ now

/-- `_animationFrame` from hair.core.js, at frame start time `now` with
pending list `acts` (kept sorted by descending time, so the soonest action is
last) and dispose set `disposed`.  Pops every due action from the end of the
list; actions with a numeric repeat and a non-disposed owner are rescheduled
(pushed then re-sorted); the popped actions are dispatched in stable phase
order, skipping any whose owner is disposed.  Returns the new pending list and
the list of actions actually dispatched. -/
def animationFrame (now : Int) (acts : List DAct) (disposed : List Nat) :
    List DAct × List DAct :=
  let toBeActioned := acts.reverse.takeWhile (dueBy now)
  let remaining := (acts.reverse.dropWhile (dueBy now)).reverse
  let toBeRepeated := toBeActioned.filter
    (fun a => a.rep.isSome && !(ownerDisposed disposed a.owner))
  let pending :=
    if toBeRepeated.length > 0 then
      sortTimeDesc (remaining ++ toBeRepeated.map
        (fun a => { a with time := now + 1000 * a.rep.getD 0 }))
    else remaining
  let executed := (sortPhaseAsc toBeActioned).filter
    (fun a => !(ownerDisposed disposed a.owner))
  (pending, executed)

-- ---------------------------------------------------------------------------
-- hair.html.js : state values and component specifications
-- ---------------------------------------------------------------------------

/-- Render state values: null/undefined (falsy), primitive numbers and
strings, mutable model objects and arrays (both carrying reference
identity). -/
inductive StateV : Type where
  | vnull : StateV
  | vnum (n : Int) : StateV
  | vstr (s : String) : StateV
  | obj (id : Nat) : StateV
  | arr (id : Nat) (items : List StateV) : StateV

/-- JS truthiness of a state value (`if (!state) ...`). -/
def truthy : StateV → Bool
  | .vnull => false
  | .vnum n => n != 0
  | .vstr s => s != ""
  | .obj _ => true
  | .arr _ _ => true

/-- `Array.isArray(state)`. -/
def stateItems : StateV → Option (List StateV)
  | .arr _ items => some items
  | _ => none

/-- A state value used as an identity key (reference identity for objects and
arrays, value identity for primitives). -/
def stateKey : StateV → JSVal
  | .vnull => .nullV
  | .vnum n => .num n
  | .vstr s => .str s
  | .obj id => .objRef id
  | .arr id _ => .objRef id

/-- `typeof state == 'object'` for a truthy state: model objects and arrays
are watchable; primitives are not. -/
def stateObjId : StateV → Option Nat
  | .obj id => some id
  | .arr id _ => some id
  | _ => none

/-- Which lifecycle callbacks a `ContextListenerSpecification`'s configurator
installs on the created attachment (the callbacks themselves are opaque). -/
structure CLCfg where
  hasAttach : Bool
  hasUpdate : Bool
  hasRemove : Bool
  hasBroadcast : Bool
deriving DecidableEq, Repr

/-- Component specification values, the universe of things `#apply`
dispatches on: strings, raw numbers (which `#apply` rejects as an unhandled
component type), `ElementSpecification`, `ComposeSpecification`,
`ListenSpecification`, `ContextListenerSpecification`, arrays of
specifications, bare functions, and null/undefined.  The `properties` object
of an element and the listener function of `listen` are opaque references. -/
inductive Spec : Type where
  | textS (s : String) : Spec
  | numS (n : Int) : Spec
  | elemS (ty : String) (props : Option Nat) (children : List Spec) : Spec
  | composeS (st : StateV) (comp : Spec) (reuseKey : JSVal) : Spec
  | listenS (event : String) (listener : Nat) : Spec
  | ctxLS (clty : String) (cfg : CLCfg) (reuseKeys : List JSVal) : Spec
  | fragS (children : List Spec) : Spec
  | lazyS (f : StateV → Spec) : Spec
  | nullS : Spec

/-- The `compose(state, component, reuseKey)` helper:
`this.reuseKey = reuseKey ?? this.state`. -/
def composeSpec (st : StateV) (comp : Spec) (reuseKey : Option JSVal) : Spec :=
  .composeS st comp (reuseKey.getD (stateKey st))

-- ---------------------------------------------------------------------------
-- hair.html.js : attachments and render contexts
-- ---------------------------------------------------------------------------

mutual

/-- Live attachments created by a render pass.  Every attachment stores its
object identity `id` and the identity-key list `keys` assigned by
`addAttachment`.  `subCtx` owns a nested context, `elemA`/`textA` own a host
node, `listenA` owns a DOM event subscription, `ctxL` is a
`ContextListenerAttachment` with the callbacks its configurator installed. -/
inductive Att : Type where
  | subCtx (id : Nat) (keys : List JSVal) (ctx : Ctx) : Att
  | elemA (id : Nat) (keys : List JSVal) (node : Nat) : Att
  | textA (id : Nat) (keys : List JSVal) (node : Nat) : Att
  | listenA (id : Nat) (keys : List JSVal) (node : Nat) (event : String)
      (listener : Nat) : Att
  | ctxL (id : Nat) (keys : List JSVal) (node : Nat) (clty : String)
      (cfg : CLCfg) : Att

/-- A `RenderContext`: object identity, parent DOM node, current component
specification and current attachment list.  (`parentContext`, which only
feeds `get`/`set`, and the `contextValues` map are modelled separately on
ancestor chains; `updateIsRequested` only feeds the consolidated signal
update, outside a pass.) -/
inductive Ctx : Type where
  | mk (id : Nat) (parentDOM : Nat) (component : Spec) (attachments : List Att) : Ctx

end

instance : Inhabited Att := ⟨.elemA 0 [] 0⟩

instance : Inhabited Ctx := ⟨.mk 0 0 .nullS []⟩

/-- Attachment variant tags, standing for the attachment classes used in
`instanceof` checks. -/
inductive VTag : Type where
  | subC | elemC | textC | listenC | ctxlC
deriving DecidableEq, Repr

def Att.variant : Att → VTag
  | .subCtx .. => .subC
  | .elemA .. => .elemC
  | .textA .. => .textC
  | .listenA .. => .listenC
  | .ctxL .. => .ctxlC

def Att.id : Att → Nat
  | .subCtx i .. => i
  | .elemA i .. => i
  | .textA i .. => i
  | .listenA i .. => i
  | .ctxL i .. => i

def Att.keys : Att → List JSVal
  | .subCtx _ k _ => k
  | .elemA _ k _ => k
  | .textA _ k _ => k
  | .listenA _ k _ _ _ => k
  | .ctxL _ k _ _ _ => k

def Ctx.id : Ctx → Nat
  | .mk i _ _ _ => i

def Ctx.parentDOM : Ctx → Nat
  | .mk _ p _ _ => p

def Ctx.component : Ctx → Spec
  | .mk _ _ c _ => c

def Ctx.attachments : Ctx → List Att
  | .mk _ _ _ a => a

/-- `updateComponent` (component refreshed on reuse). -/
def Ctx.withComponent (c : Ctx) (comp : Spec) : Ctx :=
  .mk c.id c.parentDOM comp c.attachments

def Ctx.withAttachments (c : Ctx) (atts : List Att) : Ctx :=
  .mk c.id c.parentDOM c.component atts

-- ---------------------------------------------------------------------------
-- DOM store and order-hint map
-- ---------------------------------------------------------------------------

/-- The DOM, as a store from parent node id to the ordered ids of its
children.  A node absent from every children list is detached. -/
abbrev Dom := List (Nat × List Nat)

def domChildren (dom : Dom) (p : Nat) : List Nat :=
  match dom.find? (fun e => e.1 == p) with
  | some e => e.2
  | none => []

def domSetChildren (dom : Dom) (p : Nat) (cs : List Nat) : Dom :=
  if dom.any (fun e => e.1 == p) then
    dom.map (fun e => if e.1 == p then (p, cs) else e)
  else dom ++ [(p, cs)]

/-- `parent.firstChild`. -/
def domFirstChild (dom : Dom) (p : Nat) : Option Nat :=
  (domChildren dom p).head?

/-- `node.parentElement`. -/
def domParent (dom : Dom) (n : Nat) : Option Nat :=
  (dom.find? (fun e => e.2.contains n)).map (fun e => e.1)

def nextAfter (n : Nat) : List Nat → Option Nat
  | [] => none
  | x :: rest => if x == n then rest.head? else nextAfter n rest

/-- `node.nextSibling` (null when detached or last). -/
def domNextSibling (dom : Dom) (n : Nat) : Option Nat :=
  match dom.find? (fun e => e.2.contains n) with
  | some e => nextAfter n e.2
  | none => none

/-- `node.remove()`: detach the node from whatever parent holds it. -/
def domRemoveNode (dom : Dom) (n : Nat) : Dom :=
  dom.map (fun e => (e.1, e.2.erase n))

def insertBeforeList (el : Nat) (anchor : Option Nat) : List Nat → List Nat
  | [] => [el]
  | x :: rest =>
    match anchor with
    | none => x :: rest ++ [el]
    | some b => if x == b then el :: x :: rest else x :: insertBeforeList el anchor rest

/-- `parent.insertBefore(el, anchor)` for a non-null anchor and
`parent.appendChild(el)` for a null one. -/
def domInsertBefore (dom : Dom) (p : Nat) (el : Nat) (anchor : Option Nat) : Dom :=
  domSetChildren dom p (insertBeforeList el anchor (domChildren dom p))

/-- The order-hint map (`parentOrder`): parent node id to the next expected
sibling cursor (a node id, or none for "append at the end"). -/
abbrev OrderMap := List (Nat × Option Nat)

def omHas (m : OrderMap) (k : Nat) : Bool :=
  m.any (fun e => e.1 == k)

def omGet (m : OrderMap) (k : Nat) : Option (Option Nat) :=
  (m.find? (fun e => e.1 == k)).map (fun e => e.2)

def omSet (m : OrderMap) (k : Nat) (v : Option Nat) : OrderMap :=
  if m.any (fun e => e.1 == k) then
    m.map (fun e => if e.1 == k then (k, v) else e)
  else m ++ [(k, v)]

-- ---------------------------------------------------------------------------
-- Engine substrate and trace events
-- ---------------------------------------------------------------------------

/-- The global substrate a pass runs against: the DOM store, the allocation
counter standing for object creation, the registered watchers and the dispose
set. -/
structure Eng where
  dom : Dom
  nextId : Nat
  watchers : List WatcherV
  disposed : List Nat

/-- Observable events of a pass, in program order.  Opaque user callbacks
(lifecycle listeners, property application) are recorded rather than run. -/
inductive Ev : Type where
  | createNode (node : Nat) : Ev
  | createText (node : Nat) (s : String) : Ev
  | moveNode (node : Nat) : Ev
  | removeNode (node : Nat) : Ev
  | setText (node : Nat) (s : String) : Ev
  | setProps (node : Nat) (props : Nat) : Ev
  | addListener (node : Nat) (event : String) : Ev
  | removeListener (node : Nat) (event : String) : Ev
  | newAtt (att : Nat) : Ev
  | release (att : Nat) : Ev
  | attachCb (att : Nat) : Ev
  | updateCb (att : Nat) : Ev
  | removeCb (att : Nat) : Ev
  | broadcastCb (att : Nat) : Ev
deriving DecidableEq, Repr

/-- `core.markObjectAsDisposed`. -/
def markDisposed (e : Eng) (objId : Nat) : Eng :=
  { e with disposed := e.disposed ++ [objId] }

/-- `core.removeWatcher(owner)`: drop every watcher registered by this
owner. -/
def removeWatcherOwner (e : Eng) (owner : Nat) : Eng :=
  { e with watchers := e.watchers.filter (fun w => w.owner != some owner) }

/-- `core.watch(object, action, owner)` as used by `update` (the action is
the context's consolidated-update closure). -/
def addWatcher (e : Eng) (obj : Nat) (owner : Nat) : Eng :=
  { e with watchers := e.watchers ++ [⟨obj, some owner⟩] }

-- ---------------------------------------------------------------------------
-- RenderPhase : matching
-- ---------------------------------------------------------------------------

/-- A `RenderPhase`'s three lists: the copied prior attachments still
unmatched, the attachments created or reused so far, and the newly created
ones. -/
structure Phase where
  prior : List Att
  cur : List Att
  newA : List Att

/-- The inner key loop of `find`: compare the requested keys element-wise
against the stored keys, indexing only up to the requested length (a stored
key list longer than the request leaves the extra entries unchecked; a
shorter one fails, since a defined key is never loosely equal to
`undefined`). -/
def keysMatch : List JSVal → List JSVal → Bool
  | [], _ => true
  | _ :: _, [] => false
  | r :: rs, s :: ss => r == s && keysMatch rs ss

/-- The linear scan of `find`: walk the remaining prior attachments in order
and splice out the first one of the expected variant whose stored keys match
the request. -/
def findSplice (v : VTag) (keys : List JSVal) : List Att → Option (Att × List Att)
  | [] => none
  | a :: rest =>
    if a.variant = v ∧ keysMatch keys a.keys then some (a, rest)
    else (findSplice v keys rest).map (fun p => (p.1, a :: p.2))

/-- `RenderPhase.find(attachmentType, keys)`: on a match the attachment is
removed from `priorAttachments` and pushed onto `attachments`; otherwise
null and the phase unchanged. -/
def phFind (v : VTag) (keys : List JSVal) (ph : Phase) : Option (Att × Phase) :=
  (findSplice v keys ph.prior).map
    (fun p => (p.1, ⟨p.2, ph.cur ++ [p.1], ph.newA⟩))

/-- `RenderPhase.addAttachment(attachment, keys)`: push onto both
`attachments` and `newAttachments` (the keys are already stored on the
attachment value). -/
def phAdd (ph : Phase) (a : Att) : Phase :=
  ⟨ph.prior, ph.cur ++ [a], ph.newA ++ [a]⟩

/-- Overwrite the most recently pushed attachment (the pure-value image of
mutating an attachment object that is already in the phase lists). -/
def setLast (l : List Att) (x : Att) : List Att :=
  match l with
  | [] => []
  | _ :: _ => l.dropLast ++ [x]

-- ---------------------------------------------------------------------------
-- RenderPhase : find-or-create operations
-- ---------------------------------------------------------------------------

/-- `RenderPhase.findOrCreateElement(type, parent, state, properties)`.
Ensures the order-hint cursor for `parent` exists (seeding it with
`parent.firstChild`), then matches an `ElementAttachment` by
`(type, parent, state)`.  A matched node already at the cursor or whose next
sibling is the cursor advances the cursor without moving; otherwise the node
is detached and reinserted at the cursor.  An unmatched request creates a
fresh node and inserts it at the cursor (appending when the cursor is
null). -/
def findOrCreateElement (e : Eng) (ph : Phase) (po : OrderMap) (parent : Nat)
    (ty : String) (sk : JSVal) : Eng × Phase × OrderMap × Nat × List Ev :=
  let po := if omHas po parent then po else omSet po parent (domFirstChild e.dom parent)
  let insertBefore := (omGet po parent).getD none
  match phFind .elemC [.str ty, .objRef parent, sk] ph with
  | some (a, ph') =>
    let node := match a with | .elemA _ _ n => n | _ => a.id
    if some node = insertBefore ∨ domNextSibling e.dom node = insertBefore then
      (e, ph', omSet po parent (domNextSibling e.dom node), node, [])
    else
      let dom1 := domRemoveNode e.dom node
      ({ e with dom := domInsertBefore dom1 parent node insertBefore },
        ph', po, node, [.moveNode node])
  | none =>
    let node := e.nextId
    let attId := e.nextId + 1
    let e := { e with
                nextId := e.nextId + 2,
                dom := domInsertBefore e.dom parent node insertBefore }
    let a := Att.elemA attId [.str ty, .objRef parent, sk] node
    (e, phAdd ph a, po, node, [.createNode node, .newAtt attId])

/-- `RenderPhase.findCreateOrUpdateText(parent, text)`: keyed by `(parent)`;
a match overwrites `textContent` in place, a miss creates a text node and
appends it to the parent. -/
def findCreateOrUpdateText (e : Eng) (ph : Phase) (parent : Nat) (text : String) :
    Eng × Phase × List Ev :=
  match phFind .textC [.objRef parent] ph with
  | some (a, ph') =>
    let node := match a with | .textA _ _ n => n | _ => a.id
    (e, ph', [.setText node text])
  | none =>
    let node := e.nextId
    let attId := e.nextId + 1
    let e := { e with
                nextId := e.nextId + 2,
                dom := domSetChildren e.dom parent (domChildren e.dom parent ++ [node]) }
    let a := Att.textA attId [.objRef parent] node
    (e, phAdd ph a, [.createText node text, .newAtt attId])

/-- `RenderPhase.findOrCreateDOMListener(context, parent, event, listener)`:
keyed by `(context, parent, event)`; a match just rebinds the listener
reference, a miss subscribes a new wrapped listener on the node. -/
def findOrCreateDOMListener (e : Eng) (ph : Phase) (ctxId : Nat) (parent : Nat)
    (event : String) (listener : Nat) : Eng × Phase × List Ev :=
  match phFind .listenC [.objRef ctxId, .objRef parent, .str event] ph with
  | some (a, ph') =>
    let a' := match a with
      | .listenA i k n ev _ => Att.listenA i k n ev listener
      | _ => a
    (e, { ph' with cur := setLast ph'.cur a' }, [])
  | none =>
    let attId := e.nextId
    let e := { e with nextId := e.nextId + 1 }
    let a := Att.listenA attId [.objRef ctxId, .objRef parent, .str event]
      parent event listener
    (e, phAdd ph a, [.addListener parent event, .newAtt attId])

/-- `RenderPhase.findOrCreateContextListener(context, element, type,
configurator, reuseKeys)`: keyed by `(context, element, type, ...reuseKeys)`;
a match is returned untouched, a miss creates the attachment and runs the
configurator once (modelled by the callback set it installs). -/
def findOrCreateContextListener (e : Eng) (ph : Phase) (ctxId : Nat) (node : Nat)
    (clty : String) (cfg : CLCfg) (reuseKeys : List JSVal) :
    Eng × Phase × List Ev :=
  let keys := [JSVal.objRef ctxId, JSVal.objRef node, JSVal.str clty] ++ reuseKeys
  match phFind .ctxlC keys ph with
  | some (_, ph') => (e, ph', [])
  | none =>
    let attId := e.nextId
    let e := { e with nextId := e.nextId + 1 }
    let a := Att.ctxL attId keys node clty cfg
    (e, phAdd ph a, [.newAtt attId])

/-- The find part of `findOrCreateSubContext` / `findOrCreateListItemSubContext`
(both key by `(parent, keyObject)`). -/
def findSubContext (ph : Phase) (parent : Nat) (key : JSVal) : Option (Att × Phase) :=
  phFind .subC [.objRef parent, key] ph

-- ---------------------------------------------------------------------------
-- Attachment removal cascade (RenderAttachment.remove and friends)
-- ---------------------------------------------------------------------------

mutual

/-- `attachment.remove()`.  Every variant first runs `super.remove()`
(marking the attachment disposed, recorded as a `release` event), then its
own teardown: a `SubContextAttachment` disposes its nested context, an
`ElementAttachment` marks its node disposed and detaches it, a
`TextAttachment` detaches its text node, a `DOMListenerAttachment`
unsubscribes, and a `ContextListenerAttachment` fires `onRemove` if
installed.  Fueled because of the nested-context recursion. -/
def removeAtt : Nat → Eng → Att → Option (Eng × List Ev)
  | 0, _, _ => none
  | f + 1, e, a =>
    match a with
    | .subCtx id _ ctx =>
      match disposeCtx f (markDisposed e id) ctx with
      | some (e1, _, t) => some (e1, .release id :: t)
      | none => none
    | .elemA id _ node =>
      let e1 := markDisposed (markDisposed e id) node
      some ({ e1 with dom := domRemoveNode e1.dom node },
        [.release id, .removeNode node])
    | .textA id _ node =>
      let e1 := markDisposed e id
      some ({ e1 with dom := domRemoveNode e1.dom node },
        [.release id, .removeNode node])
    | .listenA id _ node ev _ =>
      some (markDisposed e id, [.release id, .removeListener node ev])
    | .ctxL id _ _ _ cfg =>
      some (markDisposed e id,
        .release id :: if cfg.hasRemove then [.removeCb id] else [])

/-- The decrementing-index removal loop
(`let i = list.length; while (i > 0) { list[--i].remove(); }`), shared by
`clear` and `commit`: removes `atts[i-1]`, `atts[i-2]`, ..., `atts[0]`. -/
def removeLoopIdx : Nat → Eng → List Att → Nat → Option (Eng × List Ev)
  | 0, _, _, _ => none
  | _ + 1, e, _, 0 => some (e, [])
  | f + 1, e, atts, i + 1 =>
    match removeAtt f e (atts.getD i default) with
    | some (e1, t1) =>
      match removeLoopIdx f e1 atts i with
      | some (e2, t2) => some (e2, t1 ++ t2)
      | none => none
    | none => none

/-- `RenderContext.clear()`: remove all attachments in reverse order, empty
the list, then unsubscribe the context's watch. -/
def clearCtx : Nat → Eng → Ctx → Option (Eng × Ctx × List Ev)
  | 0, _, _ => none
  | f + 1, e, c =>
    match removeLoopIdx f e c.attachments c.attachments.length with
    | some (e1, t) => some (removeWatcherOwner e1 c.id, c.withAttachments [], t)
    | none => none

/-- `RenderContext.dispose()`: `clear()` then mark the context disposed. -/
def disposeCtx : Nat → Eng → Ctx → Option (Eng × Ctx × List Ev)
  | 0, _, _ => none
  | f + 1, e, c =>
    match clearCtx f e c with
    | some (e1, c1, t) => some (markDisposed e1 c.id, c1, t)
    | none => none

end

-- ---------------------------------------------------------------------------
-- RenderContext.commit
-- ---------------------------------------------------------------------------

/-- The `onAttach` firing loop of `commit`: every new attachment that is a
`ContextListenerAttachment` fires its attach callback if installed, in
creation order. -/
def directAttachEvs (newA : List Att) : List Ev :=
  newA.filterMap (fun a =>
    match a with
    | .ctxL id _ _ _ cfg => if cfg.hasAttach then some (.attachCb id) else none
    | _ => none)

/-- The `onUpdate` firing loop of `commit`: every current attachment that is
a `ContextListenerAttachment` fires its update callback if installed, in
final attachment-list order. -/
def directUpdateEvs (atts : List Att) : List Ev :=
  atts.filterMap (fun a =>
    match a with
    | .ctxL id _ _ _ cfg => if cfg.hasUpdate then some (.updateCb id) else none
    | _ => none)

/-- `RenderContext.commit(renderPhase)`: remove the attachments left in
`priorAttachments` with the decrementing-index loop, take the phase's
`attachments` as current, then fire attach callbacks for the new attachments
and update callbacks for all current ones. -/
def commitPhase (f : Nat) (e : Eng) (ph : Phase) : Option (Eng × List Att × List Ev) :=
  match removeLoopIdx f e ph.prior ph.prior.length with
  | some (e1, t) =>
    some (e1, ph.cur, t ++ directAttachEvs ph.newA ++ directUpdateEvs ph.cur)
  | none => none

-- ---------------------------------------------------------------------------
-- RenderContext.update and the recursive #apply pass
-- ---------------------------------------------------------------------------

/-- Seeding of a fresh `parentOrder` map by `update` when called without one:
every current `ElementAttachment` whose node still sits under the context's
parent overwrites the cursor entry for that parent (so the last such element
wins). -/
def seedOrder (e : Eng) (c : Ctx) : OrderMap :=
  c.attachments.foldl
    (fun m a =>
      match a with
      | .elemA _ _ node =>
        if domParent e.dom node = some c.parentDOM then
          omSet m c.parentDOM (some node)
        else m
      | _ => m)
    []

mutual

/-- `RenderContext.update(state, parentOrder)`: a falsy state clears the
context; otherwise seed or adopt the order-hint map, unsubscribe the
previous watch, run one `#apply` pass over the current component, commit the
phase, and re-subscribe a watch when the state is an object. -/
def updateCtx : Nat → Eng → Ctx → StateV → Option OrderMap →
    Except String (Eng × Ctx × OrderMap × List Ev)
  | 0, _, _, _, _ => .error ("fuel")
  | f + 1, e, c, st, po =>
    if truthy st = false then
      match clearCtx f e c with
      | some (e1, c1, t) => .ok (e1, c1, po.getD [], t)
      | none => .error ("fuel")
    else
      let pom := match po with
        | some m => m
        | none => seedOrder e c
      let e0 := removeWatcherOwner e c.id
      match applySpec f e0 c.id c.parentDOM st c.component ⟨c.attachments, [], []⟩ pom with
      | .ok (e1, ph1, po1, t1) =>
        match commitPhase f e1 ph1 with
        | some (e2, atts, t2) =>
          let e3 := match stateObjId st with
            | some objId => addWatcher e2 objId c.id
            | none => e2
          .ok (e3, c.withAttachments atts, po1, t1 ++ t2)
        | none => .error ("fuel")
      | .error msg => .error msg

/-- `RenderContext.#apply(parent, state, component, renderPhase)`.  An array
state switches to list mode regardless of the component; otherwise dispatch
on the component variant exactly as the `instanceof`/`typeof` chain does,
with a raw number falling into the unhandled-component throw. -/
def applySpec : Nat → Eng → Nat → Nat → StateV → Spec → Phase → OrderMap →
    Except String (Eng × Phase × OrderMap × List Ev)
  | 0, _, _, _, _, _, _, _ => .error ("fuel")
  | f + 1, e, cid, parent, st, spec, ph, po =>
    match stateItems st with
    | some items => applyItems f e cid parent spec items ph po
    | none =>
      match spec with
      | .textS s =>
        let r := findCreateOrUpdateText e ph parent s
        .ok (r.1, r.2.1, po, r.2.2)
      | .fragS [] => .ok (e, ph, po, [])
      | .fragS (x :: rest) =>
        match applySpec f e cid parent st x ph po with
        | .ok (e1, ph1, po1, t1) =>
          match applySpec f e1 cid parent st (.fragS rest) ph1 po1 with
          | .ok (e2, ph2, po2, t2) => .ok (e2, ph2, po2, t1 ++ t2)
          | .error m => .error m
        | .error m => .error m
      | .elemS ty props children =>
        match findOrCreateElement e ph po parent ty (stateKey st) with
        | (e1, ph1, po1, node, t1) =>
          let tp := match props with
            | some pid => [Ev.setProps node pid]
            | none => []
          match applySpec f e1 cid node st (.fragS children) ph1 po1 with
          | .ok (e2, ph2, po2, t2) => .ok (e2, ph2, po2, t1 ++ tp ++ t2)
          | .error m => .error m
      | .composeS cst comp rk =>
        match findSubContext ph parent rk with
        | some (a, ph1) =>
          let sub := match a with
            | .subCtx _ _ cx => cx.withComponent comp
            | _ => default
          match updateCtx f e sub cst (some po) with
          | .ok (e1, sub1, po1, t1) =>
            let a1 := match a with
              | .subCtx i k _ => Att.subCtx i k sub1
              | _ => a
            .ok (e1, { ph1 with cur := setLast ph1.cur a1 }, po1, t1)
          | .error m => .error m
        | none =>
          let attId := e.nextId
          let sub0 := Ctx.mk (e.nextId + 1) parent comp []
          let e0 := { e with nextId := e.nextId + 2 }
          let ph1 := phAdd ph (Att.subCtx attId [.objRef parent, rk] sub0)
          match updateCtx f e0 sub0 cst (some po) with
          | .ok (e1, sub1, po1, t1) =>
            let a1 := Att.subCtx attId [.objRef parent, rk] sub1
            .ok (e1, { ph1 with cur := setLast ph1.cur a1, newA := setLast ph1.newA a1 },
              po1, .newAtt attId :: t1)
          | .error m => .error m
      | .listenS ev listener =>
        let r := findOrCreateDOMListener e ph cid parent ev listener
        .ok (r.1, r.2.1, po, r.2.2)
      | .ctxLS clty cfg rks =>
        let r := findOrCreateContextListener e ph cid parent clty cfg rks
        .ok (r.1, r.2.1, po, r.2.2)
      | .lazyS fn => applySpec f e cid parent st (fn st) ph po
      | .nullS => .ok (e, ph, po, [])
      | .numS _ => .error ("unhandled component type number")

/-- The list-mode loop of `#apply`: for each item, find or create a
`SubContextAttachment` keyed by `(parent, item)` and recursively update that
sub-context with the item as its state, sharing the order-hint map. -/
def applyItems : Nat → Eng → Nat → Nat → Spec → List StateV → Phase → OrderMap →
    Except String (Eng × Phase × OrderMap × List Ev)
  | 0, _, _, _, _, _, _, _ => .error ("fuel")
  | _ + 1, e, _, _, _, [], ph, po => .ok (e, ph, po, [])
  | f + 1, e, cid, parent, comp, item :: rest, ph, po =>
    let step : Except String (Eng × Phase × OrderMap × List Ev) :=
      match findSubContext ph parent (stateKey item) with
      | some (a, ph1) =>
        let sub := match a with
          | .subCtx _ _ cx => cx.withComponent comp
          | _ => default
        match updateCtx f e sub item (some po) with
        | .ok (e1, sub1, po1, t1) =>
          let a1 := match a with
            | .subCtx i k _ => Att.subCtx i k sub1
            | _ => a
          .ok (e1, { ph1 with cur := setLast ph1.cur a1 }, po1, t1)
        | .error m => .error m
      | none =>
        let attId := e.nextId
        let sub0 := Ctx.mk (e.nextId + 1) parent comp []
        let e0 := { e with nextId := e.nextId + 2 }
        let ph1 := phAdd ph (Att.subCtx attId [.objRef parent, stateKey item] sub0)
        match updateCtx f e0 sub0 item (some po) with
        | .ok (e1, sub1, po1, t1) =>
          let a1 := Att.subCtx attId [.objRef parent, stateKey item] sub1
          .ok (e1, { ph1 with cur := setLast ph1.cur a1, newA := setLast ph1.newA a1 },
            po1, .newAtt attId :: t1)
        | .error m => .error m
    match step with
    | .ok (e1, ph1, po1, t1) =>
      match applyItems f e1 cid parent comp rest ph1 po1 with
      | .ok (e2, ph2, po2, t2) => .ok (e2, ph2, po2, t1 ++ t2)
      | .error m => .error m
    | .error m => .error m

end

/-- The public `render(parent, state, component)`: construct a fresh root
context, then `context.render(state)` = `clear()` followed by
`update(state)`. -/
def renderTop (f : Nat) (e : Eng) (parent : Nat) (st : StateV) (comp : Spec) :
    Except String (Eng × Ctx × OrderMap × List Ev) :=
  let c := Ctx.mk e.nextId parent comp []
  let e0 := { e with nextId := e.nextId + 1 }
  match clearCtx f e0 c with
  | some (e1, c1, t0) =>
    match updateCtx f e1 c1 st none with
    | .ok (e2, c2, po, t1) => .ok (e2, c2, po, t0 ++ t1)
    | .error m => .error m
  | none => .error ("fuel")

-- ---------------------------------------------------------------------------
-- RenderContext.broadcast
-- ---------------------------------------------------------------------------

mutual

/-- `RenderContext.broadcast(event, data)`: visit every current attachment in
list order; recurse into sub-contexts, fire the broadcast callback of context
listeners that installed one. -/
def broadcastCtx : Ctx → List Ev
  | .mk _ _ _ atts => broadcastList atts

def broadcastList : List Att → List Ev
  | [] => []
  | a :: rest => broadcastOne a ++ broadcastList rest

def broadcastOne : Att → List Ev
  | .subCtx _ _ sub => broadcastCtx sub
  | .ctxL id _ _ _ cfg => if cfg.hasBroadcast then [.broadcastCb id] else []
  | _ => []

end

-- ---------------------------------------------------------------------------
-- Trace projections used in the theorems
-- ---------------------------------------------------------------------------

/-- The ids of the update callbacks fired in a trace, in order. -/
def updIds (t : List Ev) : List Nat :=
  t.filterMap (fun ev =>
    match ev with
    | .updateCb a => some a
    | _ => none)

def isNewAtt : Ev → Bool
  | .newAtt _ => true
  | _ => false

def isRelease : Ev → Bool
  | .release _ => true
  | _ => false

def isAttachCb : Ev → Bool
  | .attachCb _ => true
  | _ => false

def isUpdateCb : Ev → Bool
  | .updateCb _ => true
  | _ => false

def isRemoveCb : Ev → Bool
  | .removeCb _ => true
  | _ => false

/-- A trace with no attachment creations, no releases, no attach callbacks
and no remove callbacks (the shape of an idempotent re-render). -/
def quietTrace (t : List Ev) : Bool :=
  t.all (fun ev => !(isNewAtt ev) && !(isRelease ev) && !(isAttachCb ev) && !(isRemoveCb ev))

/-- Events a removal cascade can produce: releases, host-node and listener
detachments, and remove callbacks. -/
def isRemovalEv : Ev → Bool
  | .release _ => true
  | .removeNode _ => true
  | .removeListener _ _ => true
  | .removeCb _ => true
  | _ => false

/-- `t` is the event trace `attachment.remove()` produces for `a` (at some
fuel, from some engine; the trace depends only on the attachment). -/
def removalTraceOf (a : Att) (t : List Ev) : Prop :=
  ∃ g e e', removeAtt g e a = some (e', t)

mutual

/-- The update callbacks an already-committed context tree fires when
re-rendered unchanged: nested sub-contexts commit first (in attachment-list
order), then the context's own update callbacks in attachment-list order. -/
def ctxPostUpd : Ctx → List Nat
  | .mk _ _ _ atts => attsPostUpd atts ++ updIds (directUpdateEvs atts)

def attsPostUpd : List Att → List Nat
  | [] => []
  | a :: rest => attPostUpd a ++ attsPostUpd rest

def attPostUpd : Att → List Nat
  | .subCtx _ _ sub => ctxPostUpd sub
  | _ => []

end

-- ---------------------------------------------------------------------------
-- The element() specification constructor (flexible arguments)
-- ---------------------------------------------------------------------------

/-- One argument of `element(type, arg1, arg2, arg3)`, classified the way
the JS `typeof`/`instanceof` chain sees it.  Note that `typeof null` is
`'object'`, so a literal null argument takes the property-object branch. -/
inductive EArg : Type where
  | undefA : EArg
  | nullA : EArg
  | strA (s : String) : EArg
  | numA (n : Int) : EArg
  | arrA (children : List Spec) : EArg
  | specA (sp : Spec) : EArg
  | fnA (f : StateV → Spec) : EArg
  | objA (props : Nat) : EArg

/-- The body of the `element` argument loop for one argument, acting on the
accumulated `(properties, children)` pair. -/
def elementArgStep (acc : Option Nat × List Spec) (arg : EArg) :
    Except String (Option Nat × List Spec) :=
  match arg with
  | .undefA => .ok acc
  | .strA s => .ok (acc.1, acc.2 ++ [.textS s])
  | .numA n => .ok (acc.1, acc.2 ++ [.textS (toString n)])
  | .arrA children => .ok (acc.1, acc.2 ++ children)
  | .specA sp => .ok (acc.1, acc.2 ++ [sp])
  | .fnA f => .ok (acc.1, acc.2 ++ [.lazyS f])
  | .nullA =>
    if acc.1.isSome then .error ("multiple property objects for HTML element")
    else .ok (none, acc.2)
  | .objA p =>
    if acc.1.isSome then .error ("multiple property objects for HTML element")
    else .ok (some p, acc.2)

def elementArgsLoop (acc : Option Nat × List Spec) :
    List EArg → Except String (Option Nat × List Spec)
  | [] => .ok acc
  | arg :: rest =>
    match elementArgStep acc arg with
    | .ok acc1 => elementArgsLoop acc1 rest
    | .error m => .error m

/-- `element(type, ...)`: classify each argument in order (strings and
numbers become text children, arrays are spliced, specifications and
functions become children, at most one object may supply the properties),
throwing `'multiple property objects for HTML element'` on a second
property object. -/
def elementFn (ty : String) (args : List EArg) : Except String Spec :=
  match elementArgsLoop (none, []) args with
  | .ok (props, children) => .ok (.elemS ty props children)
  | .error m => .error m

def isObjArg : EArg → Bool
  | .objA _ => true
  | _ => false

-- ---------------------------------------------------------------------------
-- RenderContext.set / get (ancestor-chain value store)
-- ---------------------------------------------------------------------------

/-- A context's named-value store together with its parent chain. -/
inductive CtxChain : Type where
  | root (values : List (String × JSVal)) : CtxChain
  | child (values : List (String × JSVal)) (parent : CtxChain) : CtxChain

def storeLookup (vs : List (String × JSVal)) (name : String) : Option JSVal :=
  (vs.find? (fun e => e.1 == name)).map (fun e => e.2)

/-- `Map.set`: replace the entry in place or append a new one. -/
def storeSet (vs : List (String × JSVal)) (name : String) (v : JSVal) :
    List (String × JSVal) :=
  if vs.any (fun e => e.1 == name) then
    vs.map (fun e => if e.1 == name then (name, v) else e)
  else vs ++ [(name, v)]

def CtxChain.values : CtxChain → List (String × JSVal)
  | .root vs => vs
  | .child vs _ => vs

/-- `RenderContext.set(name, value)` (always on the local store). -/
def ctxSet (c : CtxChain) (name : String) (v : JSVal) : CtxChain :=
  match c with
  | .root vs => .root (storeSet vs name v)
  | .child vs p => .child (storeSet vs name v) p

/-- `RenderContext.get(name, defaultValue)` as implemented in hair.html.js:
local store first, then the parent chain with the same default, else the
default. -/
def ctxGet (c : CtxChain) (name : String) (dflt : JSVal) : JSVal :=
  match c with
  | .root vs =>
    match storeLookup vs name with
    | some v => v
    | none => dflt
  | .child vs p =>
    match storeLookup vs name with
    | some v => v
    | none => ctxGet p name dflt

/-- `RenderContext.get(name, defaultValue)` as implemented in hair.js: the
recursive call `this.parentContext.get(name)` drops the supplied default, so
a lookup that reaches an ancestor falls back to null instead. -/
def ctxGetHairJs (c : CtxChain) (name : String) (dflt : JSVal) : JSVal :=
  match c with
  | .root vs =>
    match storeLookup vs name with
    | some v => v
    | none => dflt
  | .child vs p =>
    match storeLookup vs name with
    | some v => v
    | none => ctxGetHairJs p name .nullV

/-- First hit for a name walking the chain upward (the specification-level
description of the lookup). -/
def chainLookup (c : CtxChain) (name : String) : Option JSVal :=
  match c with
  | .root vs => storeLookup vs name
  | .child vs p =>
    match storeLookup vs name with
    | some v => some v
    | none => chainLookup p name

-- ---------------------------------------------------------------------------
-- Replay predicates (the specification of an idempotent second pass)
-- ---------------------------------------------------------------------------

/-- Applying `spec` to `st` against a phase whose prior list starts with
exactly `Δ` consumes `Δ` in order (matching every entry), appends it
unchanged to the current list, creates nothing, and fires no attach, remove
or release events — the update callbacks fired are exactly the committed
sub-context trees' callbacks of `Δ`, in order. -/
def ReplaysApply (f : Nat) (cid parent : Nat) (st : StateV) (spec : Spec)
    (Δ : List Att) : Prop :=
  ∀ e2 rest cur2 new2 po2, ∃ e2' po2' t2,
    applySpec f e2 cid parent st spec ⟨Δ ++ rest, cur2, new2⟩ po2 =
      .ok (e2', ⟨rest, cur2 ++ Δ, new2⟩, po2', t2) ∧
    quietTrace t2 = true ∧ updIds t2 = attsPostUpd Δ

/-- List-mode analogue of `ReplaysApply` for `applyItems`. -/
def ReplaysItems (f : Nat) (cid parent : Nat) (comp : Spec) (items : List StateV)
    (Δ : List Att) : Prop :=
  ∀ e2 rest cur2 new2 po2, ∃ e2' po2' t2,
    applyItems f e2 cid parent comp items ⟨Δ ++ rest, cur2, new2⟩ po2 =
      .ok (e2', ⟨rest, cur2 ++ Δ, new2⟩, po2', t2) ∧
    quietTrace t2 = true ∧ updIds t2 = attsPostUpd Δ

/-- Updating an already-committed context with the same state again matches
every attachment: the context value is returned unchanged, no attachment is
created or released, no attach or remove callback fires, and each committed
attachment tree fires its update callbacks exactly once, in commit order. -/
def ReplaysUpdate (f : Nat) (c : Ctx) (st : StateV) : Prop :=
  ∀ e2 po2, ∃ e2' po2' t2,
    updateCtx f e2 c st po2 = .ok (e2', c, po2', t2) ∧
    quietTrace t2 = true ∧ updIds t2 = ctxPostUpd c

-- ---------------------------------------------------------------------------
-- Helper lemmas
-- ---------------------------------------------------------------------------

theorem mem_insertTimeDesc {x y : DAct} {l : List DAct}
    (h : x ∈ insertTimeDesc y l) : x = y ∨ x ∈ l := by
  induction l with
  | nil => simpa [insertTimeDesc] using h
  | cons z zs ih =>
    simp only [insertTimeDesc] at h
    by_cases hc : y.time ≤ z.time
    · simp [hc] at h
      rcases h with h | h
      · exact Or.inr (by simp [h])
      · rcases ih h with h | h
        · exact Or.inl h
        · exact Or.inr (by simp [h])
    · simp [hc] at h
      rcases h with h | h | h
      · exact Or.inl h
      · exact Or.inr (by simp [h])
      · exact Or.inr (by simp [h])

theorem mem_sortTimeDesc_aux {x : DAct} :
    ∀ (l acc : List DAct), x ∈ l.foldl (fun a y => insertTimeDesc y a) acc →
      x ∈ acc ∨ x ∈ l := by
  intro l
  induction l with
  | nil => intro acc h; exact Or.inl (by simpa using h)
  | cons z zs ih =>
    intro acc h
    simp only [List.foldl_cons] at h
    rcases ih _ h with h | h
    · rcases mem_insertTimeDesc h with h | h
      · exact Or.inr (by simp [h])
      · exact Or.inl h
    · exact Or.inr (by simp [h])

theorem mem_sortTimeDesc {x : DAct} {l : List DAct} (h : x ∈ sortTimeDesc l) :
    x ∈ l := by
  rcases mem_sortTimeDesc_aux l [] h with h | h
  · simp at h
  · exact h

theorem dropWhile_due_gt (now : Int) :
    ∀ (l : List DAct), l.Pairwise (fun x y => x.time ≤ y.time) →
      ∀ b ∈ l.dropWhile (dueBy now), ¬(b.time ≤ now) := by
  intro l
  induction l with
  | nil => intro _ b hb; simp [List.dropWhile] at hb
  | cons z zs ih =>
    intro hp b hb
    rw [List.pairwise_cons] at hp
    by_cases hz : dueBy now z = true
    · rw [List.dropWhile_cons_of_pos hz] at hb
      exact ih hp.2 b hb
    · rw [List.dropWhile_cons_of_neg hz] at hb
      simp only [dueBy, decide_eq_true_eq] at hz
      rw [List.mem_cons] at hb
      rcases hb with rfl | hb
      · exact hz
      · intro hble
        exact hz (le_trans (hp.1 b hb) hble)

-- ---------------------------------------------------------------------------
-- C9 / C10 : frame dispatcher and signal claims
-- ---------------------------------------------------------------------------

/-- C9: for a delayed or timer action scheduled with an owner, if the owner
is marked disposed before the frame dispatch of the action's due time, the
frame dispatcher skips it: the due action is neither dispatched in that
frame nor kept (or rescheduled) in the pending list, so its callback never
executes. -/
theorem c9_disposed_owner_never_runs (now : Int) (acts : List DAct)
    (disposed : List Nat) (a : DAct) (o : Nat)
    (hsort : acts.Pairwise (fun x y => y.time ≤ x.time))
    (hdue : a.time ≤ now) (howner : a.owner = some o) (hdisp : o ∈ disposed) :
    a ∉ (animationFrame now acts disposed).2 ∧
    a ∉ (animationFrame now acts disposed).1 := by
  have hads : ownerDisposed disposed a.owner = true := by
    rw [howner]
    simpa [ownerDisposed] using hdisp
  constructor
  · intro hmem
    simp only [animationFrame] at hmem
    rw [List.mem_filter] at hmem
    rw [hads] at hmem
    simpa using hmem.2
  · intro hmem
    simp only [animationFrame] at hmem
    have hrev : (acts.reverse).Pairwise (fun x y => x.time ≤ y.time) := by
      rw [List.pairwise_reverse]
      exact hsort
    have hrem : ∀ b ∈ (acts.reverse.dropWhile (dueBy now)).reverse, ¬(b.time ≤ now) := by
      intro b hb
      rw [List.mem_reverse] at hb
      exact dropWhile_due_gt now _ hrev b hb
    by_cases hlen : 0 < (List.filter (fun a => a.rep.isSome && !ownerDisposed disposed a.owner)
        (acts.reverse.takeWhile (dueBy now))).length
    · simp only [gt_iff_lt, hlen, if_pos] at hmem
      have hmem' := mem_sortTimeDesc hmem
      rw [List.mem_append] at hmem'
      rcases hmem' with h | h
      · exact hrem a h hdue
      · rw [List.mem_map] at h
        obtain ⟨b, hb, hba⟩ := h
        rw [List.mem_filter] at hb
        obtain ⟨hbmem, hbpred⟩ := hb
        rw [Bool.and_eq_true, Bool.not_eq_true'] at hbpred
        have hab : a.owner = b.owner := by rw [← hba]
        rw [hab, hbpred.2] at hads
        exact Bool.false_ne_true hads
    · simp only [gt_iff_lt, hlen, if_neg, not_false_iff] at hmem
      exact hrem a hmem hdue

/-- C9 witness: a due repeat-free action owned by disposed owner 4 is neither
dispatched nor retained. -/
theorem c9_disposed_owner_never_runs_witness :
    (⟨2, 40, some 4, none, 0⟩ : DAct) ∉
      (animationFrame 100 [⟨1, 50, some 3, none, 0⟩, ⟨2, 40, some 4, none, 0⟩] [4]).2 ∧
    (⟨2, 40, some 4, none, 0⟩ : DAct) ∉
      (animationFrame 100 [⟨1, 50, some 3, none, 0⟩, ⟨2, 40, some 4, none, 0⟩] [4]).1 :=
  c9_disposed_owner_never_runs 100 _ [4] _ 4 (by decide) (by decide) rfl (by decide)

/-- C10: `signal` on a target that is itself marked disposed, or that has no
registered watchers, invokes no watcher callbacks at all. -/
theorem c10_signal_silent (ws : List WatcherV) (disposed : List Nat) (obj : Nat)
    (h : obj ∈ disposed ∨ ∀ w ∈ ws, w.object ≠ obj) :
    signalInvoked ws disposed obj = [] := by
  unfold signalInvoked
  rcases h with h | h
  · have hc : disposed.contains obj = true := by
      simpa [List.contains] using List.elem_eq_true_of_mem h
    rw [hc]
    simp
  · have hw : hasWatch ws obj = false := by
      simp only [hasWatch, List.any_eq_false]
      intro w hwm
      simpa using h w hwm
    rw [hw]
    simp

/-- C10 witness: a disposed target (even with a live watcher) and a target
with no watchers both produce no invocations. -/
theorem c10_signal_silent_witness :
    ((7 ∈ ([7] : List Nat)) ∨ ∀ w ∈ ([⟨7, some 1⟩] : List WatcherV), w.object ≠ 7) ∧
    signalInvoked [⟨7, some 1⟩] [7] 7 = [] :=
  ⟨Or.inl (by decide), c10_signal_silent _ _ _ (Or.inl (by decide))⟩

-- ---------------------------------------------------------------------------
-- C6 : get / set chain lookup
-- ---------------------------------------------------------------------------

theorem storeLookup_storeSet (vs : List (String × JSVal)) (name : String) (v : JSVal) :
    storeLookup (storeSet vs name v) name = some v := by
  unfold storeSet
  by_cases h : vs.any (fun e => e.1 == name)
  · simp only [h, if_pos]
    induction vs with
    | nil => simp at h
    | cons x xs ih =>
      by_cases hx : x.1 == name
      · simp [storeLookup, List.find?, hx]
      · simp only [List.any_cons, hx, Bool.false_or] at h
        simp only [List.map_cons, hx, if_neg, Bool.not_eq_true]
        have := ih h
        simpa [storeLookup, List.find?, hx] using this
  · simp only [h, if_neg, Bool.not_eq_true]
    rw [Bool.not_eq_true] at h
    induction vs with
    | nil => simp [storeLookup, List.find?]
    | cons x xs ih =>
      rw [List.any_cons, Bool.or_eq_false_iff] at h
      have hx : (x.1 == name) = false := h.1
      simp only [List.cons_append]
      have hres := ih (by simp [h.2])
      simpa [storeLookup, List.find?, hx] using hres

/-- C6: `get(name, default)` returns the locally most recently `set` value
when one exists, otherwise the nearest ancestor's lookup; if no context in
the chain holds the name it returns the supplied default — as implemented by
hair.html.js.  The duplicate implementation in hair.js drops the supplied
default when recursing into the parent, shown here diverging on a concrete
input (child and parent both without the name, default `'d'`): it answers
null instead of the default. -/
theorem c6_get_chain_default (c : CtxChain) (name : String) (v dflt : JSVal) :
    ctxGet c name dflt = (chainLookup c name).getD dflt ∧
    ctxGet (ctxSet c name v) name dflt = v ∧
    ctxGetHairJs (CtxChain.child [] (CtxChain.root [])) "k" (JSVal.str "d") = JSVal.nullV := by
  refine ⟨?_, ?_, rfl⟩
  · induction c with
    | root vs => cases h : storeLookup vs name <;> simp [ctxGet, chainLookup, h]
    | child vs p ih => cases h : storeLookup vs name <;> simp [ctxGet, chainLookup, h, ih]
  · cases c with
    | root vs => simp [ctxSet, ctxGet, storeLookup_storeSet]
    | child vs p => simp [ctxSet, ctxGet, storeLookup_storeSet]

-- ---------------------------------------------------------------------------
-- C8 : malformed specifications fail loudly
-- ---------------------------------------------------------------------------

theorem elementArgsLoop_two_objs :
    ∀ (args : List EArg) (acc : Option Nat × List Spec),
      ((acc.1.isSome = true ∧ 1 ≤ (args.filter isObjArg).length) ∨
        2 ≤ (args.filter isObjArg).length) →
      elementArgsLoop acc args = .error ("multiple property objects for HTML element") := by
  intro args
  induction args with
  | nil =>
    intro acc h
    rcases h with ⟨_, h⟩ | h <;> simp at h
  | cons arg rest ih =>
    intro acc h
    cases arg with
    | objA p =>
      by_cases hs : acc.1.isSome
      · simp [elementArgsLoop, elementArgStep, hs]
      · have hnone : acc.1 = none := Option.not_isSome_iff_eq_none.mp hs
        rcases h with ⟨hS, _⟩ | h2
        · rw [hnone] at hS; simp at hS
        · have hcount : 1 ≤ (rest.filter isObjArg).length := by
            rw [List.filter_cons_of_pos (by simp [isObjArg])] at h2
            simpa using Nat.le_of_succ_le_succ h2
          simp only [elementArgsLoop, elementArgStep, hnone, Option.isSome_none,
            Bool.false_eq_true, if_neg, not_false_iff]
          exact ih _ (Or.inl ⟨by simp, hcount⟩)
    | nullA =>
      by_cases hs : acc.1.isSome
      · simp [elementArgsLoop, elementArgStep, hs]
      · have hnone : acc.1 = none := Option.not_isSome_iff_eq_none.mp hs
        rcases h with ⟨hS, _⟩ | h2
        · rw [hnone] at hS; simp at hS
        · have hcount : 2 ≤ (rest.filter isObjArg).length := by
            rwa [List.filter_cons_of_neg (by simp [isObjArg])] at h2
          simp only [elementArgsLoop, elementArgStep, hnone, Option.isSome_none,
            Bool.false_eq_true, if_neg, not_false_iff]
          exact ih _ (Or.inr hcount)
    | undefA =>
      have h' := by rwa [List.filter_cons_of_neg (by simp [isObjArg])] at h
      simpa [elementArgsLoop, elementArgStep] using ih acc h'
    | strA s =>
      have h' := by rwa [List.filter_cons_of_neg (by simp [isObjArg])] at h
      simpa [elementArgsLoop, elementArgStep] using
        ih (acc.1, acc.2 ++ [Spec.textS s]) h'
    | numA n =>
      have h' := by rwa [List.filter_cons_of_neg (by simp [isObjArg])] at h
      simpa [elementArgsLoop, elementArgStep] using
        ih (acc.1, acc.2 ++ [Spec.textS (toString n)]) h'
    | arrA cs =>
      have h' := by rwa [List.filter_cons_of_neg (by simp [isObjArg])] at h
      simpa [elementArgsLoop, elementArgStep] using ih (acc.1, acc.2 ++ cs) h'
    | specA sp =>
      have h' := by rwa [List.filter_cons_of_neg (by simp [isObjArg])] at h
      simpa [elementArgsLoop, elementArgStep] using ih (acc.1, acc.2 ++ [sp]) h'
    | fnA fn =>
      have h' := by rwa [List.filter_cons_of_neg (by simp [isObjArg])] at h
      simpa [elementArgsLoop, elementArgStep] using
        ih (acc.1, acc.2 ++ [Spec.lazyS fn]) h'

/-- C8: malformed specifications fail immediately and loudly: an `element`
call given two property-object arguments throws
`'multiple property objects for HTML element'` at construction time, and a
specification value of an unrecognized variant (here a raw number) makes the
whole `update` call abort with `'unhandled component type number'`, surfacing
the error to the caller rather than ignoring it. -/
theorem c8_malformed_fails_loudly (ty : String) (args : List EArg) (f : Nat)
    (e : Eng) (i p : Nat) (atts : List Att) (st : StateV) (n : Int)
    (hobj : 2 ≤ (args.filter isObjArg).length)
    (hst : truthy st = true) (harr : stateItems st = none) :
    elementFn ty args = .error ("multiple property objects for HTML element") ∧
    updateCtx (f + 2) e (Ctx.mk i p (.numS n) atts) st none =
      .error ("unhandled component type number") := by
  constructor
  · unfold elementFn
    rw [elementArgsLoop_two_objs args (none, []) (Or.inr hobj)]
  · simp only [updateCtx, hst, Bool.true_eq_false, if_neg, not_false_iff,
      applySpec, harr, Ctx.component, Ctx.attachments, Ctx.parentDOM, Ctx.id]

/-- C8 witness at concrete inputs. -/
theorem c8_malformed_fails_loudly_witness :
    elementFn "div" [.objA 1, .objA 2] =
      .error ("multiple property objects for HTML element") ∧
    updateCtx 2 ⟨[], 0, [], []⟩ (Ctx.mk 0 0 (.numS 7) []) (.obj 5) none =
      .error ("unhandled component type number") :=
  c8_malformed_fails_loudly "div" [.objA 1, .objA 2] 0 ⟨[], 0, [], []⟩ 0 0 [] (.obj 5) 7
    (by decide) (by decide) rfl

-- ---------------------------------------------------------------------------
-- C3 : the find scan
-- ---------------------------------------------------------------------------

theorem keysMatch_iff_take (r : List JSVal) :
    ∀ s : List JSVal, keysMatch r s = true ↔ s.take r.length = r := by
  induction r with
  | nil => intro s; simp [keysMatch]
  | cons a rs ih =>
    intro s
    cases s with
    | nil => simp [keysMatch]
    | cons b ss =>
      simp only [keysMatch, Bool.and_eq_true, beq_iff_eq, List.length_cons,
        List.take_succ_cons, List.cons.injEq, ih]
      exact ⟨fun ⟨h1, h2⟩ => ⟨h1.symm, h2⟩, fun ⟨h1, h2⟩ => ⟨h1.symm, h2⟩⟩

theorem findSplice_some (v : VTag) (keys : List JSVal) :
    ∀ (prior : List Att) (a : Att) (rest : List Att),
      findSplice v keys prior = some (a, rest) →
      ∃ l1 l2, prior = l1 ++ a :: l2 ∧ rest = l1 ++ l2 ∧
        a.variant = v ∧ keysMatch keys a.keys = true ∧
        ∀ b ∈ l1, ¬(b.variant = v ∧ keysMatch keys b.keys = true) := by
  intro prior
  induction prior with
  | nil => intro a rest h; simp [findSplice] at h
  | cons x xs ih =>
    intro a rest h
    simp only [findSplice] at h
    by_cases hx : x.variant = v ∧ keysMatch keys x.keys = true
    · rw [if_pos hx] at h
      have hax := Option.some.inj h
      cases hax
      exact ⟨[], xs, rfl, rfl, hx.1, hx.2, by simp⟩
    · rw [if_neg hx] at h
      cases hfs : findSplice v keys xs with
      | none => rw [hfs] at h; simp at h
      | some pr =>
        rw [hfs] at h
        simp only [Option.map_some'] at h
        have h' := Option.some.inj h
        cases h'
        obtain ⟨l1, l2, hsplit, hrest, hvar, hkeys, hfront⟩ := ih pr.1 pr.2 hfs
        refine ⟨x :: l1, l2, ?_, ?_, hvar, hkeys, ?_⟩
        · rw [List.cons_append]
          exact congrArg (x :: ·) hsplit
        · rw [List.cons_append]
          exact congrArg (x :: ·) hrest
        · intro b hb
          rw [List.mem_cons] at hb
          rcases hb with rfl | hb
          · exact hx
          · exact hfront b hb

theorem findSplice_none_iff (v : VTag) (keys : List JSVal) :
    ∀ (prior : List Att), findSplice v keys prior = none ↔
      ∀ b ∈ prior, ¬(b.variant = v ∧ keysMatch keys b.keys = true) := by
  intro prior
  induction prior with
  | nil => simp [findSplice]
  | cons x xs ih =>
    simp only [findSplice]
    by_cases hx : x.variant = v ∧ keysMatch keys x.keys = true
    · rw [if_pos hx]
      simp only [List.mem_cons]
      constructor
      · intro h; simp at h
      · intro h; exact absurd hx (h x (Or.inl rfl))
    · rw [if_neg hx]
      rw [Option.map_eq_none']
      rw [ih]
      constructor
      · intro h b hb
        rw [List.mem_cons] at hb
        rcases hb with rfl | hb
        · exact hx
        · exact h b hb
      · intro h b hb
        exact h b (List.mem_cons_of_mem x hb)

/-- C3 (amended): `find` performs a linear scan, in order, of the remaining
prior-attachment list and returns the first attachment of the expected
variant whose stored key tuple agrees with the requested key tuple at every
index of the requested tuple (the request is a prefix of the stored keys — a
stored tuple with extra trailing keys still matches); on a match the entry is
removed from the prior list and appended to the phase's current list; if no
such attachment exists it returns null and the phase is unchanged. -/
theorem c3_find_linear_scan (v : VTag) (keys : List JSVal) (ph : Phase) :
    (∀ a ph', phFind v keys ph = some (a, ph') →
      ∃ l1 l2, ph.prior = l1 ++ a :: l2 ∧
        a.variant = v ∧ List.take keys.length a.keys = keys ∧
        (∀ b ∈ l1, ¬(b.variant = v ∧ List.take keys.length b.keys = keys)) ∧
        ph' = ⟨l1 ++ l2, ph.cur ++ [a], ph.newA⟩) ∧
    (phFind v keys ph = none ↔
      ∀ b ∈ ph.prior, ¬(b.variant = v ∧ List.take keys.length b.keys = keys)) := by
  constructor
  · intro a ph' h
    unfold phFind at h
    cases hfs : findSplice v keys ph.prior with
    | none => rw [hfs] at h; simp at h
    | some pr =>
      rw [hfs] at h
      simp only [Option.map_some'] at h
      have h' := Option.some.inj h
      cases h'
      obtain ⟨l1, l2, hsplit, hrest, hvar, hkeys, hfront⟩ :=
        findSplice_some v keys ph.prior pr.1 pr.2 hfs
      refine ⟨l1, l2, hsplit, hvar, (keysMatch_iff_take keys pr.1.keys).mp hkeys, ?_, ?_⟩
      · intro b hb hcontra
        exact hfront b hb ⟨hcontra.1, (keysMatch_iff_take keys b.keys).mpr hcontra.2⟩
      · rw [hrest]
  · unfold phFind
    rw [Option.map_eq_none']
    rw [findSplice_none_iff]
    constructor
    · intro h b hb hcontra
      exact h b hb ⟨hcontra.1, (keysMatch_iff_take keys b.keys).mpr hcontra.2⟩
    · intro h b hb hcontra
      exact h b hb ⟨hcontra.1, (keysMatch_iff_take keys b.keys).mp hcontra.2⟩

/-- C3 witness: on a phase whose prior list holds one text attachment of a
different variant, `find` returns null. -/
theorem c3_find_linear_scan_witness :
    phFind .elemC [.str "div"] ⟨[Att.textA 4 [.objRef 0] 9], [], []⟩ = none :=
  (c3_find_linear_scan .elemC [.str "div"] ⟨[Att.textA 4 [.objRef 0] 9], [], []⟩).2.mpr
    (by decide)

/-- C3 counterexample: the claim's "element-wise equal key tuple" fails — a
request of three keys matches a stored attachment carrying four keys (the
scan checks only the indices of the requested tuple), so the returned
attachment's stored key tuple is not equal to the requested tuple. -/
theorem c3_counterexample :
    ((phFind .ctxlC [.objRef 1, .objRef 2, .str "update"]
        ⟨[Att.ctxL 9 [.objRef 1, .objRef 2, .str "update", .num 7] 2 "update"
          ⟨false, false, false, false⟩], [], []⟩).map (fun pr => pr.1.keys)) =
      some [.objRef 1, .objRef 2, .str "update", .num 7] ∧
    [JSVal.objRef 1, .objRef 2, .str "update", .num 7] ≠
      [JSVal.objRef 1, .objRef 2, .str "update"] :=
  ⟨rfl, by decide⟩

-- ---------------------------------------------------------------------------
-- C2 : findOrCreateElement
-- ---------------------------------------------------------------------------

/-- C2 counterexample: with parent 0 holding children `[1, 2, 3]`, an
order-hint cursor at node 3, and a prior `ElementAttachment` matching the key
on node 1, the claim says node 1 (at index 0, strictly preceding the cursor
at index 2) is left in place and the cursor advanced; the code instead
physically relocates node 1 to the cursor (children become `[2, 1, 3]`, with
a move event), because the in-place branch requires the node to equal the
cursor or immediately precede it. -/
theorem c2_counterexample :
    (findOrCreateElement ⟨[(0, [1, 2, 3])], 50, [], []⟩
        ⟨[Att.elemA 40 [.str "div", .objRef 0, .objRef 77] 1], [], []⟩
        [(0, some 3)] 0 "div" (.objRef 77)).1.dom = [(0, [2, 1, 3])] ∧
    (findOrCreateElement ⟨[(0, [1, 2, 3])], 50, [], []⟩
        ⟨[Att.elemA 40 [.str "div", .objRef 0, .objRef 77] 1], [], []⟩
        [(0, some 3)] 0 "div" (.objRef 77)).2.2.2.2 = [Ev.moveNode 1] ∧
    ([(0, [2, 1, 3])] : Dom) ≠ [(0, [1, 2, 3])] ∧
    List.indexOf 1 (domChildren [(0, [1, 2, 3])] 0) <
      List.indexOf 3 (domChildren [(0, [1, 2, 3])] 0) :=
  ⟨rfl, rfl, by decide, by decide⟩

/-- C2 (amended): per `findOrCreateElement` application, with the order-hint
cursor for the parent resolved (seeded from `firstChild` when absent): a
prior `ElementAttachment` matching `(type, parent, ambientState)` whose node
equals the cursor or is the immediate previous sibling of the cursor leaves
the DOM untouched and advances the cursor to the node's next sibling; a
match anywhere else detaches the node and reinserts it at the cursor; an
unmatched request creates a fresh node, inserts it at the cursor and records
a new attachment. -/
theorem c2_find_or_create_element (e : Eng) (ph : Phase) (po : OrderMap)
    (parent : Nat) (ty : String) (sk : JSVal) :
    (∀ i k n ph', phFind .elemC [.str ty, .objRef parent, sk] ph =
        some (.elemA i k n, ph') →
      ((some n = ((omGet (if omHas po parent then po
            else omSet po parent (domFirstChild e.dom parent)) parent).getD none) ∨
        domNextSibling e.dom n = ((omGet (if omHas po parent then po
            else omSet po parent (domFirstChild e.dom parent)) parent).getD none)) →
        findOrCreateElement e ph po parent ty sk =
          (e, ph', omSet (if omHas po parent then po
              else omSet po parent (domFirstChild e.dom parent)) parent
            (domNextSibling e.dom n), n, [])) ∧
      (¬(some n = ((omGet (if omHas po parent then po
            else omSet po parent (domFirstChild e.dom parent)) parent).getD none) ∨
        domNextSibling e.dom n = ((omGet (if omHas po parent then po
            else omSet po parent (domFirstChild e.dom parent)) parent).getD none)) →
        findOrCreateElement e ph po parent ty sk =
          ({ e with dom := domInsertBefore (domRemoveNode e.dom n) parent n
                             ((omGet (if omHas po parent then po
                                 else omSet po parent (domFirstChild e.dom parent))
                               parent).getD none) },
            ph', (if omHas po parent then po
              else omSet po parent (domFirstChild e.dom parent)), n, [.moveNode n]))) ∧
    (phFind .elemC [.str ty, .objRef parent, sk] ph = none →
      findOrCreateElement e ph po parent ty sk =
        ({ e with
            nextId := e.nextId + 2,
            dom := domInsertBefore e.dom parent e.nextId
              ((omGet (if omHas po parent then po
                else omSet po parent (domFirstChild e.dom parent)) parent).getD none) },
          phAdd ph (.elemA (e.nextId + 1) [.str ty, .objRef parent, sk] e.nextId),
          (if omHas po parent then po
            else omSet po parent (domFirstChild e.dom parent)),
          e.nextId,
          [.createNode e.nextId, .newAtt (e.nextId + 1)])) := by
  constructor
  · intro i k n ph' hf
    constructor
    · intro hcond
      unfold findOrCreateElement
      rw [hf]
      simp only
      rw [if_pos hcond]
    · intro hcond
      unfold findOrCreateElement
      rw [hf]
      simp only
      rw [if_neg hcond]
  · intro hf
    unfold findOrCreateElement
    rw [hf]

/-- C2 witness: a matched node sitting exactly at the cursor is left in place
and the cursor advances past it. -/
theorem c2_find_or_create_element_witness :
    findOrCreateElement ⟨[(0, [1])], 50, [], []⟩
        ⟨[Att.elemA 40 [.str "div", .objRef 0, .objRef 7] 1], [], []⟩
        [] 0 "div" (.objRef 7) =
      (⟨[(0, [1])], 50, [], []⟩, ⟨[], [Att.elemA 40 [.str "div", .objRef 0, .objRef 7] 1], []⟩,
        [(0, none)], 1, []) :=
  ((c2_find_or_create_element ⟨[(0, [1])], 50, [], []⟩
      ⟨[Att.elemA 40 [.str "div", .objRef 0, .objRef 7] 1], [], []⟩
      [] 0 "div" (.objRef 7)).1 40 [.str "div", .objRef 0, .objRef 7] 1
      ⟨[], [Att.elemA 40 [.str "div", .objRef 0, .objRef 7] 1], []⟩ rfl).1
    (Or.inl rfl)

-- ---------------------------------------------------------------------------
-- Removal-trace lemmas shared by C1 and C5
-- ---------------------------------------------------------------------------

theorem removal_evs_only :
    ∀ f : Nat,
      (∀ e a e' t, removeAtt f e a = some (e', t) → ∀ ev ∈ t, isRemovalEv ev = true) ∧
      (∀ e atts n e' t, removeLoopIdx f e atts n = some (e', t) →
        ∀ ev ∈ t, isRemovalEv ev = true) ∧
      (∀ e c e' c' t, clearCtx f e c = some (e', c', t) → ∀ ev ∈ t, isRemovalEv ev = true) ∧
      (∀ e c e' c' t, disposeCtx f e c = some (e', c', t) → ∀ ev ∈ t, isRemovalEv ev = true) := by
  intro f
  induction f with
  | zero =>
    exact ⟨fun e a e' t h => by simp [removeAtt] at h,
      fun e atts n e' t h => by simp [removeLoopIdx] at h,
      fun e c e' c' t h => by simp [clearCtx] at h,
      fun e c e' c' t h => by simp [disposeCtx] at h⟩
  | succ f ih =>
    obtain ⟨ihA, ihL, ihC, ihD⟩ := ih
    have hA : ∀ e a e' t, removeAtt (f + 1) e a = some (e', t) →
        ∀ ev ∈ t, isRemovalEv ev = true := by
      intro e a e' t h ev hev
      cases a with
      | subCtx id keys ctx =>
        simp only [removeAtt] at h
        cases hd : disposeCtx f (markDisposed e id) ctx with
        | none => rw [hd] at h; simp at h
        | some pr =>
          obtain ⟨e1, c1, t1⟩ := pr
          rw [hd] at h
          have h' := Option.some.inj h
          have ht : Ev.release id :: t1 = t := congrArg Prod.snd h'
          rw [← ht] at hev
          rw [List.mem_cons] at hev
          rcases hev with rfl | hev
          · rfl
          · exact ihD _ _ _ _ _ hd ev hev
      | elemA id keys node =>
        simp only [removeAtt] at h
        have ht : [Ev.release id, Ev.removeNode node] = t :=
          congrArg Prod.snd (Option.some.inj h)
        rw [← ht] at hev
        rcases hev with _ | ⟨_, _ | ⟨_, h0⟩⟩ <;> first | rfl | cases h0
      | textA id keys node =>
        simp only [removeAtt] at h
        have ht : [Ev.release id, Ev.removeNode node] = t :=
          congrArg Prod.snd (Option.some.inj h)
        rw [← ht] at hev
        rcases hev with _ | ⟨_, _ | ⟨_, h0⟩⟩ <;> first | rfl | cases h0
      | listenA id keys node evn listener =>
        simp only [removeAtt] at h
        have ht : [Ev.release id, Ev.removeListener node evn] = t :=
          congrArg Prod.snd (Option.some.inj h)
        rw [← ht] at hev
        rcases hev with _ | ⟨_, _ | ⟨_, h0⟩⟩ <;> first | rfl | cases h0
      | ctxL id keys node clty cfg =>
        simp only [removeAtt] at h
        have ht : (Ev.release id :: if cfg.hasRemove then [Ev.removeCb id] else []) = t :=
          congrArg Prod.snd (Option.some.inj h)
        rw [← ht] at hev
        rw [List.mem_cons] at hev
        rcases hev with rfl | hev
        · rfl
        · by_cases hc : cfg.hasRemove
          · rw [if_pos hc] at hev
            rcases hev with _ | ⟨_, h0⟩
            · rfl
            · cases h0
          · rw [if_neg hc] at hev; simp at hev
    have hL : ∀ e atts n e' t, removeLoopIdx (f + 1) e atts n = some (e', t) →
        ∀ ev ∈ t, isRemovalEv ev = true := by
      intro e atts n e' t h ev hev
      cases n with
      | zero =>
        simp only [removeLoopIdx] at h
        have ht : ([] : List Ev) = t := congrArg Prod.snd (Option.some.inj h)
        rw [← ht] at hev
        simp at hev
      | succ m =>
        simp only [removeLoopIdx] at h
        cases h1 : removeAtt f e (atts.getD m default) with
        | none => rw [h1] at h; exact Option.noConfusion h
        | some pr1 =>
          obtain ⟨e1, t1⟩ := pr1
          rw [h1] at h
          dsimp only at h
          cases h2 : removeLoopIdx f e1 atts m with
          | none => rw [h2] at h; exact Option.noConfusion h
          | some pr2 =>
            obtain ⟨e2, t2⟩ := pr2
            rw [h2] at h
            dsimp only at h
            have ht : t1 ++ t2 = t := congrArg Prod.snd (Option.some.inj h)
            rw [← ht, List.mem_append] at hev
            rcases hev with hev | hev
            · exact ihA _ _ _ _ h1 ev hev
            · exact ihL _ _ _ _ _ h2 ev hev
    have hC : ∀ e c e' c' t, clearCtx (f + 1) e c = some (e', c', t) →
        ∀ ev ∈ t, isRemovalEv ev = true := by
      intro e c e' c' t h ev hev
      simp only [clearCtx] at h
      cases h1 : removeLoopIdx f e c.attachments c.attachments.length with
      | none => rw [h1] at h; simp at h
      | some pr =>
        obtain ⟨e1, t1⟩ := pr
        rw [h1] at h
        have ht : t1 = t := congrArg (fun q => q.2.2) (Option.some.inj h)
        rw [← ht] at hev
        exact ihL _ _ _ _ _ h1 ev hev
    refine ⟨hA, hL, hC, ?_⟩
    intro e c e' c' t h ev hev
    simp only [disposeCtx] at h
    cases h1 : clearCtx f e c with
    | none => rw [h1] at h; simp at h
    | some pr =>
      obtain ⟨e1, c1, t1⟩ := pr
      rw [h1] at h
      have ht : t1 = t := congrArg (fun q => q.2.2) (Option.some.inj h)
      rw [← ht] at hev
      exact ihC _ _ _ _ _ h1 ev hev

theorem removeAtt_head_release (f : Nat) (e : Eng) (a : Att) (e' : Eng) (t : List Ev)
    (h : removeAtt f e a = some (e', t)) : ∃ t', t = .release a.id :: t' := by
  cases f with
  | zero => simp [removeAtt] at h
  | succ f =>
    cases a with
    | subCtx id keys ctx =>
      simp only [removeAtt] at h
      cases hd : disposeCtx f (markDisposed e id) ctx with
      | none => rw [hd] at h; simp at h
      | some pr =>
        obtain ⟨e1, c1, t1⟩ := pr
        rw [hd] at h
        exact ⟨t1, (congrArg Prod.snd (Option.some.inj h)).symm⟩
    | elemA id keys node =>
      simp only [removeAtt] at h
      exact ⟨[Ev.removeNode node], (congrArg Prod.snd (Option.some.inj h)).symm⟩
    | textA id keys node =>
      simp only [removeAtt] at h
      exact ⟨[Ev.removeNode node], (congrArg Prod.snd (Option.some.inj h)).symm⟩
    | listenA id keys node evn listener =>
      simp only [removeAtt] at h
      exact ⟨[Ev.removeListener node evn], (congrArg Prod.snd (Option.some.inj h)).symm⟩
    | ctxL id keys node clty cfg =>
      simp only [removeAtt] at h
      exact ⟨(if cfg.hasRemove then [Ev.removeCb id] else []),
        (congrArg Prod.snd (Option.some.inj h)).symm⟩

theorem removeLoopIdx_join :
    ∀ (f : Nat) (e : Eng) (atts : List Att) (n : Nat) (e1 : Eng) (T : List Ev),
      removeLoopIdx f e atts n = some (e1, T) → n ≤ atts.length →
      ∃ ts, T = ts.join ∧ List.Forall₂ removalTraceOf ((atts.take n).reverse) ts := by
  intro f
  induction f with
  | zero => intro e atts n e1 T h hn; simp [removeLoopIdx] at h
  | succ f ih =>
    intro e atts n e1 T h hn
    cases n with
    | zero =>
      simp only [removeLoopIdx] at h
      have ht : ([] : List Ev) = T := congrArg Prod.snd (Option.some.inj h)
      exact ⟨[], by rw [← ht]; rfl, by simp⟩
    | succ m =>
      simp only [removeLoopIdx] at h
      cases h1 : removeAtt f e (atts.getD m default) with
      | none => rw [h1] at h; exact Option.noConfusion h
      | some pr1 =>
        obtain ⟨e2, t1⟩ := pr1
        rw [h1] at h
        dsimp only at h
        cases h2 : removeLoopIdx f e2 atts m with
        | none => rw [h2] at h; exact Option.noConfusion h
        | some pr2 =>
          obtain ⟨e3, t2⟩ := pr2
          rw [h2] at h
          dsimp only at h
          have ht : t1 ++ t2 = T := congrArg Prod.snd (Option.some.inj h)
          obtain ⟨ts2, hjoin, hf2⟩ := ih e2 atts m e3 t2 h2 (Nat.le_of_succ_le hn)
          have hm : m < atts.length := Nat.lt_of_succ_le hn
          have hget : atts.take (m + 1) = atts.take m ++ [atts.getD m default] := by
            rw [List.take_succ]
            congr 1
            rw [List.getElem?_eq_getElem hm]
            rw [List.getD_eq_getElem?_getD, List.getElem?_eq_getElem hm]
            rfl
          refine ⟨t1 :: ts2, ?_, ?_⟩
          · rw [← ht, hjoin]; rfl
          · rw [hget, List.reverse_append]
            exact List.Forall₂.cons ⟨f, e, e2, h1⟩ hf2

-- ---------------------------------------------------------------------------
-- C1 : commit ordering
-- ---------------------------------------------------------------------------

theorem removal_not_cb (ev : Ev) (h : isRemovalEv ev = true) :
    isAttachCb ev = false ∧ isUpdateCb ev = false := by
  cases ev <;> simp_all [isRemovalEv, isAttachCb, isUpdateCb]

theorem mem_directAttachEvs {ev : Ev} {l : List Att} (h : ev ∈ directAttachEvs l) :
    ∃ x, ev = Ev.attachCb x := by
  unfold directAttachEvs at h
  rw [List.mem_filterMap] at h
  obtain ⟨a, _, hfa⟩ := h
  cases a with
  | ctxL id keys node clty cfg =>
    by_cases hc : cfg.hasAttach
    · simp only [if_pos hc] at hfa
      exact ⟨id, (Option.some.inj hfa).symm⟩
    · simp only [if_neg hc] at hfa
      exact Option.noConfusion hfa
  | subCtx id keys ctx => simp at hfa
  | elemA id keys node => simp at hfa
  | textA id keys node => simp at hfa
  | listenA id keys node evn listener => simp at hfa

theorem mem_directUpdateEvs {ev : Ev} {l : List Att} (h : ev ∈ directUpdateEvs l) :
    ∃ x, ev = Ev.updateCb x := by
  unfold directUpdateEvs at h
  rw [List.mem_filterMap] at h
  obtain ⟨a, _, hfa⟩ := h
  cases a with
  | ctxL id keys node clty cfg =>
    by_cases hc : cfg.hasUpdate
    · simp only [if_pos hc] at hfa
      exact ⟨id, (Option.some.inj hfa).symm⟩
    · simp only [if_neg hc] at hfa
      exact Option.noConfusion hfa
  | subCtx id keys ctx => simp at hfa
  | elemA id keys node => simp at hfa
  | textA id keys node => simp at hfa
  | listenA id keys node evn listener => simp at hfa

theorem attach_before_update_pos (R A U : List Ev)
    (hR : ∀ ev ∈ R, isAttachCb ev = false ∧ isUpdateCb ev = false)
    (hA : ∀ ev ∈ A, ∃ x, ev = Ev.attachCb x)
    (hU : ∀ ev ∈ U, ∃ x, ev = Ev.updateCb x) :
    ∀ i j a b, (R ++ A ++ U).get? i = some (.attachCb a) →
      (R ++ A ++ U).get? j = some (.updateCb b) → i < j := by
  intro i j a b hi hj
  have hiR : ¬ i < R.length := by
    intro hlt
    rw [List.append_assoc, List.get?_append hlt] at hi
    have := (hR _ (List.get?_mem hi)).1
    simp [isAttachCb] at this
  have hjR : ¬ j < R.length := by
    intro hlt
    rw [List.append_assoc, List.get?_append hlt] at hj
    have := (hR _ (List.get?_mem hj)).2
    simp [isUpdateCb] at this
  rw [List.append_assoc, List.get?_append_right (Nat.le_of_not_lt hiR)] at hi
  rw [List.append_assoc, List.get?_append_right (Nat.le_of_not_lt hjR)] at hj
  have hiA : i - R.length < A.length := by
    by_contra hge
    rw [List.get?_append_right (Nat.le_of_not_lt hge)] at hi
    obtain ⟨x, hx⟩ := hU _ (List.get?_mem hi)
    simp at hx
  have hjA : ¬ j - R.length < A.length := by
    intro hlt
    rw [List.get?_append hlt] at hj
    obtain ⟨x, hx⟩ := hA _ (List.get?_mem hj)
    simp at hx
  have h1 : i < R.length + A.length := by omega
  have h2 : R.length + A.length ≤ j := by omega
  omega

/-- C1: on every commit of a render pass, the events are exactly: first the
removal cascades of the unmatched prior attachments, in reverse prior order;
then the attach callbacks of the newly created attachments, in creation
order; then the update callbacks of all current attachments, in final
attachment-list order — and the context's attachment list becomes the
phase's current list.  Consequently every attach callback of the pass
precedes every update callback of the pass. -/
theorem c1_commit_order (f : Nat) (e : Eng) (ph : Phase) (e1 : Eng)
    (atts : List Att) (T : List Ev)
    (h : commitPhase f e ph = some (e1, atts, T)) :
    ∃ ts, T = ts.join ++ directAttachEvs ph.newA ++ directUpdateEvs ph.cur ∧
      List.Forall₂ removalTraceOf ph.prior.reverse ts ∧
      atts = ph.cur ∧
      ∀ i j a b, T.get? i = some (.attachCb a) → T.get? j = some (.updateCb b) → i < j := by
  unfold commitPhase at h
  cases h1 : removeLoopIdx f e ph.prior ph.prior.length with
  | none => rw [h1] at h; simp at h
  | some pr =>
    obtain ⟨e2, R⟩ := pr
    rw [h1] at h
    dsimp only at h
    have h' := Option.some.inj h
    have hatts : ph.cur = atts := congrArg (fun q => q.2.1) h'
    have hT : R ++ directAttachEvs ph.newA ++ directUpdateEvs ph.cur = T :=
      congrArg (fun q => q.2.2) h'
    obtain ⟨ts, hjoin, hf⟩ := removeLoopIdx_join f e ph.prior ph.prior.length e2 R h1 le_rfl
    rw [List.take_length] at hf
    refine ⟨ts, by rw [← hT, hjoin], hf, hatts.symm, ?_⟩
    rw [← hT, hjoin]
    cases f with
    | zero => simp [removeLoopIdx] at h1
    | succ g =>
      exact attach_before_update_pos ts.join (directAttachEvs ph.newA)
        (directUpdateEvs ph.cur)
        (fun ev hev => removal_not_cb ev
          ((removal_evs_only (g + 1)).2.1 e ph.prior ph.prior.length e2 ts.join
            (hjoin ▸ h1) ev hev))
        (fun ev hev => mem_directAttachEvs hev)
        (fun ev hev => mem_directUpdateEvs hev)

/-- C1 witness: a concrete commit with one unmatched prior attachment, one
matched attachment and one new attachment shows the release, attach, update
segments in order. -/
theorem c1_commit_order_witness :
    ∃ ts, [Ev.release 1, Ev.removeCb 1, Ev.attachCb 2, Ev.updateCb 2, Ev.updateCb 3] =
        ts.join ++ directAttachEvs [Att.ctxL 2 [] 0 "update" ⟨true, true, false, false⟩] ++
          directUpdateEvs [Att.ctxL 2 [] 0 "update" ⟨true, true, false, false⟩,
            Att.ctxL 3 [] 0 "update" ⟨false, true, false, false⟩] ∧
      List.Forall₂ removalTraceOf
        ([Att.ctxL 1 [] 0 "remove" ⟨false, false, true, false⟩] : List Att).reverse ts ∧
      [Att.ctxL 2 [] 0 "update" ⟨true, true, false, false⟩,
        Att.ctxL 3 [] 0 "update" ⟨false, true, false, false⟩] =
        ([Att.ctxL 2 [] 0 "update" ⟨true, true, false, false⟩,
          Att.ctxL 3 [] 0 "update" ⟨false, true, false, false⟩] : List Att) ∧
      ∀ i j a b,
        ([Ev.release 1, Ev.removeCb 1, Ev.attachCb 2, Ev.updateCb 2,
          Ev.updateCb 3] : List Ev).get? i = some (.attachCb a) →
        ([Ev.release 1, Ev.removeCb 1, Ev.attachCb 2, Ev.updateCb 2,
          Ev.updateCb 3] : List Ev).get? j = some (.updateCb b) → i < j :=
  c1_commit_order 3 ⟨[], 0, [], []⟩
    ⟨[Att.ctxL 1 [] 0 "remove" ⟨false, false, true, false⟩],
      [Att.ctxL 2 [] 0 "update" ⟨true, true, false, false⟩,
        Att.ctxL 3 [] 0 "update" ⟨false, true, false, false⟩],
      [Att.ctxL 2 [] 0 "update" ⟨true, true, false, false⟩]⟩
    _ _ _ rfl

-- ---------------------------------------------------------------------------
-- C5 : falsy update behaves as clear
-- ---------------------------------------------------------------------------

/-- C5: `update(state)` with a falsy state behaves exactly as `clear()`: it
takes the clear path verbatim, and `clear` releases every current attachment
in strict reverse order (each release cascade starting with that
attachment's release), empties the attachment list, unsubscribes the
context's watch, and neither creates attachments nor runs a render phase
(every event of the trace is a removal event). -/
theorem c5_falsy_update_is_clear (f : Nat) (e : Eng) (c : Ctx) (st : StateV)
    (po : Option OrderMap) (hst : truthy st = false) :
    updateCtx (f + 1) e c st po =
      (match clearCtx f e c with
        | some (e1, c1, t) => .ok (e1, c1, po.getD [], t)
        | none => .error ("fuel")) ∧
    (∀ e1 c1 T, clearCtx (f + 1) e c = some (e1, c1, T) →
      c1 = c.withAttachments [] ∧
      (∀ w ∈ e1.watchers, w.owner ≠ some c.id) ∧
      (∃ ts, T = ts.join ∧
        List.Forall₂ (fun a t => removalTraceOf a t ∧ ∃ t', t = Ev.release a.id :: t')
          c.attachments.reverse ts) ∧
      (∀ ev ∈ T, isRemovalEv ev = true)) := by
  constructor
  · simp only [updateCtx]
    rw [if_pos hst]
  · intro e1 c1 T h
    have hclear := h
    simp only [clearCtx] at h
    cases h1 : removeLoopIdx f e c.attachments c.attachments.length with
    | none => rw [h1] at h; exact Option.noConfusion h
    | some pr =>
      obtain ⟨e2, t2⟩ := pr
      rw [h1] at h
      dsimp only at h
      have h' := Option.some.inj h
      have he1 : removeWatcherOwner e2 c.id = e1 := congrArg (fun q => q.1) h'
      have hc1 : c.withAttachments [] = c1 := congrArg (fun q => q.2.1) h'
      have hT : t2 = T := congrArg (fun q => q.2.2) h'
      refine ⟨hc1.symm, ?_, ?_, ?_⟩
      · intro w hw
        rw [← he1] at hw
        simp only [removeWatcherOwner, List.mem_filter] at hw
        simpa using hw.2
      · obtain ⟨ts, hjoin, hf2⟩ :=
          removeLoopIdx_join f e c.attachments c.attachments.length e2 t2 h1 le_rfl
        rw [List.take_length] at hf2
        refine ⟨ts, by rw [← hT, hjoin], ?_⟩
        refine List.Forall₂.imp ?_ hf2
        intro a t hrel
        obtain ⟨g, u, u', heq⟩ := hrel
        exact ⟨⟨g, u, u', heq⟩, removeAtt_head_release g u a u' t heq⟩
      · intro ev hev
        exact (removal_evs_only (f + 1)).2.2.1 e c e1 c1 T hclear ev hev

/-- C5 witness: clearing a context holding one context-listener attachment
releases it (firing its remove callback), empties the list and drops the
watch. -/
theorem c5_falsy_update_is_clear_witness :
    truthy .vnull = false ∧
    (updateCtx 4 ⟨[], 9, [⟨7, some 1⟩], []⟩
        (Ctx.mk 1 0 .nullS [Att.ctxL 2 [] 0 "remove" ⟨false, false, true, false⟩])
        .vnull none =
      (match clearCtx 3 ⟨[], 9, [⟨7, some 1⟩], []⟩
          (Ctx.mk 1 0 .nullS [Att.ctxL 2 [] 0 "remove" ⟨false, false, true, false⟩]) with
        | some (e1, c1, t) => .ok (e1, c1, (none : Option OrderMap).getD [], t)
        | none => .error ("fuel")) ∧
      (∀ e1 c1 T, clearCtx 4 ⟨[], 9, [⟨7, some 1⟩], []⟩
          (Ctx.mk 1 0 .nullS [Att.ctxL 2 [] 0 "remove" ⟨false, false, true, false⟩]) =
            some (e1, c1, T) →
        c1 = (Ctx.mk 1 0 .nullS
            [Att.ctxL 2 [] 0 "remove" ⟨false, false, true, false⟩]).withAttachments [] ∧
        (∀ w ∈ e1.watchers, w.owner ≠ some (Ctx.mk 1 0 .nullS
            [Att.ctxL 2 [] 0 "remove" ⟨false, false, true, false⟩]).id) ∧
        (∃ ts, T = ts.join ∧
          List.Forall₂ (fun a t => removalTraceOf a t ∧ ∃ t', t = Ev.release a.id :: t')
            (Ctx.mk 1 0 .nullS
              [Att.ctxL 2 [] 0 "remove" ⟨false, false, true, false⟩]).attachments.reverse ts) ∧
        (∀ ev ∈ T, isRemovalEv ev = true))) :=
  ⟨rfl, c5_falsy_update_is_clear 3 ⟨[], 9, [⟨7, some 1⟩], []⟩
    (Ctx.mk 1 0 .nullS [Att.ctxL 2 [] 0 "remove" ⟨false, false, true, false⟩])
    .vnull none rfl⟩

-- ---------------------------------------------------------------------------
-- C7 : dispose
-- ---------------------------------------------------------------------------

/-- C7 counterexample: a context that has been disposed (cleared and marked
in the dispose set) is not inert against a direct `update` call: updating it
with a truthy state runs a full render pass that creates an attachment and a
host node — `update` never consults the dispose mark. -/
theorem c7_counterexample :
    ∃ e1 c1 t1 r,
      disposeCtx 10 ⟨[], 10, [], []⟩ (Ctx.mk 5 0 (.elemS "div" none []) []) =
        some (e1, c1, t1) ∧
      updateCtx 10 e1 c1 (.obj 9) none = .ok r ∧
      r.2.1.attachments.length = 1 ∧
      (r.2.2.2.filter isNewAtt).length = 1 :=
  ⟨_, _, _, _, rfl, rfl, rfl, rfl⟩

/-- C7 (amended): `dispose()` clears the context and marks it disposed;
thereafter the context holds no attachments, `broadcast` visits nothing, and
every asynchronous path into it is silenced — the frame dispatcher never
runs an action owned by it and `signal` never invokes a watcher owned by it.
(Direct `update`/`render` calls are not guarded by the dispose mark.) -/
theorem c7_dispose_silences_async (f : Nat) (e : Eng) (c : Ctx) (e1 : Eng)
    (c1 : Ctx) (t : List Ev) (h : disposeCtx f e c = some (e1, c1, t)) :
    c.id ∈ e1.disposed ∧ c1 = c.withAttachments [] ∧ broadcastCtx c1 = [] ∧
    (∀ now acts a, a ∈ (animationFrame now acts e1.disposed).2 → a.owner ≠ some c.id) ∧
    (∀ obj w, w ∈ signalInvoked e1.watchers e1.disposed obj → w.owner ≠ some c.id) := by
  cases f with
  | zero => simp [disposeCtx] at h
  | succ g =>
    simp only [disposeCtx] at h
    cases h1 : clearCtx g e c with
    | none => rw [h1] at h; exact Option.noConfusion h
    | some pr =>
      obtain ⟨e2, c2, t2⟩ := pr
      rw [h1] at h
      dsimp only at h
      have h' := Option.some.inj h
      have he1 : markDisposed e2 c.id = e1 := congrArg (fun q => q.1) h'
      have hc1 : c2 = c1 := congrArg (fun q => q.2.1) h'
      have hc2 : c2 = c.withAttachments [] := by
        cases g with
        | zero => simp [clearCtx] at h1
        | succ g2 =>
          simp only [clearCtx] at h1
          cases h3 : removeLoopIdx g2 e c.attachments c.attachments.length with
          | none => rw [h3] at h1; exact Option.noConfusion h1
          | some pr2 =>
            obtain ⟨e4, t4⟩ := pr2
            rw [h3] at h1
            dsimp only at h1
            exact (congrArg (fun q => q.2.1) (Option.some.inj h1)).symm
      have hdisp : c.id ∈ e1.disposed := by
        rw [← he1]
        simp [markDisposed]
      have hmem : ∀ ow, ow = some c.id → ownerDisposed e1.disposed ow = true := by
        intro ow hoe
        rw [hoe]
        simp only [ownerDisposed]
        simpa [List.contains] using List.elem_eq_true_of_mem hdisp
      refine ⟨hdisp, hc1 ▸ hc2, ?_, ?_, ?_⟩
      · rw [← hc1, hc2]
        cases c
        rfl
      · intro now acts a hmem2 hoe
        simp only [animationFrame] at hmem2
        rw [List.mem_filter] at hmem2
        rw [hmem a.owner hoe] at hmem2
        simpa using hmem2.2
      · intro obj w hw hoe
        unfold signalInvoked at hw
        by_cases hcond : (!hasWatch e1.watchers obj || e1.disposed.contains obj) = true
        · rw [if_pos hcond] at hw
          simp at hw
        · rw [if_neg hcond] at hw
          rw [List.mem_filter] at hw
          rw [hmem w.owner hoe] at hw
          simpa using hw.2

/-- C7 witness: disposing a fresh context marks it disposed with empty
attachments and silences its asynchronous paths. -/
theorem c7_dispose_silences_async_witness :
    (5 ∈ (⟨[], 10, [], [5]⟩ : Eng).disposed) ∧
    (Ctx.mk 5 0 .nullS []) = (Ctx.mk 5 0 .nullS []).withAttachments [] ∧
    broadcastCtx (Ctx.mk 5 0 .nullS []) = [] ∧
    (∀ now acts a, a ∈ (animationFrame now acts (⟨[], 10, [], [5]⟩ : Eng).disposed).2 →
      a.owner ≠ some (Ctx.mk 5 0 .nullS []).id) ∧
    (∀ obj w, w ∈ signalInvoked (⟨[], 10, [], [5]⟩ : Eng).watchers
        (⟨[], 10, [], [5]⟩ : Eng).disposed obj →
      w.owner ≠ some (Ctx.mk 5 0 .nullS []).id) :=
  c7_dispose_silences_async 3 ⟨[], 10, [], []⟩ (Ctx.mk 5 0 .nullS [])
    ⟨[], 10, [], [5]⟩ (Ctx.mk 5 0 .nullS []) [] rfl

-- ---------------------------------------------------------------------------
-- C4 support lemmas
-- ---------------------------------------------------------------------------

theorem keysMatch_refl : ∀ k : List JSVal, keysMatch k k = true := by
  intro k
  induction k with
  | nil => rfl
  | cons a rest ih => simp [keysMatch, ih]

theorem phFind_nil (v : VTag) (k : List JSVal) (c n : List Att) :
    phFind v k ⟨[], c, n⟩ = none := rfl

theorem phFind_head (v : VTag) (k : List JSVal) (a : Att) (rest c2 n2 : List Att)
    (hv : a.variant = v) (hk : keysMatch k a.keys = true) :
    phFind v k ⟨a :: rest, c2, n2⟩ = some (a, ⟨rest, c2 ++ [a], n2⟩) := by
  unfold phFind findSplice
  rw [if_pos ⟨hv, hk⟩]
  rfl

theorem setLast_append (l : List Att) (x y : Att) :
    setLast (l ++ [x]) y = l ++ [y] := by
  have hstep : setLast (l ++ [x]) y = (l ++ [x]).dropLast ++ [y] := by
    cases hl : l ++ [x] with
    | nil => exact absurd hl (by simp)
    | cons z zs => rfl
  rw [hstep]
  simp

@[simp] theorem withAttachments_id (c : Ctx) (atts : List Att) :
    (c.withAttachments atts).id = c.id := by
  cases c; rfl

@[simp] theorem withAttachments_parentDOM (c : Ctx) (atts : List Att) :
    (c.withAttachments atts).parentDOM = c.parentDOM := by
  cases c; rfl

@[simp] theorem withAttachments_component (c : Ctx) (atts : List Att) :
    (c.withAttachments atts).component = c.component := by
  cases c; rfl

@[simp] theorem withAttachments_attachments (c : Ctx) (atts : List Att) :
    (c.withAttachments atts).attachments = atts := by
  cases c; rfl

@[simp] theorem withAttachments_withAttachments (c : Ctx) (a1 a2 : List Att) :
    (c.withAttachments a1).withAttachments a2 = c.withAttachments a2 := by
  cases c; rfl

theorem withAttachments_self (c : Ctx) (h : c.attachments = []) :
    c.withAttachments [] = c := by
  cases c with
  | mk i p comp atts =>
    simp only [Ctx.attachments] at h
    rw [h]
    rfl

theorem attsPostUpd_append (l1 l2 : List Att) :
    attsPostUpd (l1 ++ l2) = attsPostUpd l1 ++ attsPostUpd l2 := by
  induction l1 with
  | nil => simp [attsPostUpd]
  | cons a rest ih => simp [attsPostUpd, ih]

theorem quietTrace_append (t1 t2 : List Ev) :
    quietTrace (t1 ++ t2) = (quietTrace t1 && quietTrace t2) := by
  simp [quietTrace, List.all_append]

theorem updIds_append (t1 t2 : List Ev) :
    updIds (t1 ++ t2) = updIds t1 ++ updIds t2 := by
  simp [updIds, List.filterMap_append]

theorem quietTrace_directUpdateEvs (l : List Att) :
    quietTrace (directUpdateEvs l) = true := by
  rw [quietTrace, List.all_eq_true]
  intro ev hev
  obtain ⟨x, rfl⟩ := mem_directUpdateEvs hev
  rfl

theorem commitPhase_nil (g : Nat) (e : Eng) (cur newA : List Att) :
    commitPhase (g + 1) e ⟨[], cur, newA⟩ =
      some (e, cur, directAttachEvs newA ++ directUpdateEvs cur) := rfl

theorem directAttachEvs_nil : directAttachEvs [] = [] := rfl

theorem clearCtx_empty (f : Nat) (e : Eng) (c : Ctx) (e1 : Eng) (c1 : Ctx)
    (t : List Ev) (hatt : c.attachments = [])
    (h : clearCtx f e c = some (e1, c1, t)) :
    e1 = removeWatcherOwner e c.id ∧ c1 = c.withAttachments [] ∧ t = [] ∧
    ∀ e2, clearCtx f e2 c = some (removeWatcherOwner e2 c.id, c.withAttachments [], []) := by
  cases f with
  | zero => simp [clearCtx] at h
  | succ g =>
    simp only [clearCtx, hatt] at h
    cases g with
    | zero => simp [removeLoopIdx] at h
    | succ g2 =>
      simp only [removeLoopIdx] at h
      have h' := Option.some.inj h
      refine ⟨(congrArg (fun q => q.1) h').symm, (congrArg (fun q => q.2.1) h').symm,
        (congrArg (fun q => q.2.2) h').symm, ?_⟩
      intro e2
      simp only [clearCtx, hatt, removeLoopIdx]

theorem updIds_ctxPostUpd_mk (i p : Nat) (comp : Spec) (atts : List Att) :
    ctxPostUpd (Ctx.mk i p comp atts) = attsPostUpd atts ++ updIds (directUpdateEvs atts) := rfl

theorem attPostUpd_sub (i : Nat) (k : List JSVal) (c : Ctx) :
    attPostUpd (Att.subCtx i k c) = ctxPostUpd c := rfl

theorem attsPostUpd_cons (a : Att) (l : List Att) :
    attsPostUpd (a :: l) = attPostUpd a ++ attsPostUpd l := rfl
set_option maxHeartbeats 1000000

theorem focElement_nil (e : Eng) (cur nw : List Att) (po : OrderMap)
    (parent : Nat) (ty : String) (sk : JSVal) :
    ∃ eC poC, findOrCreateElement e ⟨[], cur, nw⟩ po parent ty sk =
      (eC, ⟨[], cur ++ [.elemA (e.nextId + 1) [.str ty, .objRef parent, sk] e.nextId],
          nw ++ [.elemA (e.nextId + 1) [.str ty, .objRef parent, sk] e.nextId]⟩,
        poC, e.nextId, [.createNode e.nextId, .newAtt (e.nextId + 1)]) := by
  unfold findOrCreateElement
  rw [phFind_nil]
  exact ⟨_, _, rfl⟩

theorem focElement_matched (e : Eng) (i : Nat) (k : List JSVal) (n : Nat)
    (pr cur2 new2 : List Att) (po : OrderMap) (parent : Nat) (ty : String) (sk : JSVal)
    (hk : keysMatch [.str ty, .objRef parent, sk] (Att.elemA i k n).keys = true) :
    ∃ eR poR tE, findOrCreateElement e ⟨Att.elemA i k n :: pr, cur2, new2⟩ po parent ty sk =
      (eR, ⟨pr, cur2 ++ [Att.elemA i k n], new2⟩, poR, n, tE) ∧
      quietTrace tE = true ∧ updIds tE = [] := by
  unfold findOrCreateElement
  rw [phFind_head .elemC [.str ty, .objRef parent, sk] (Att.elemA i k n) pr cur2 new2 rfl hk]
  dsimp only
  by_cases hcond : (some n =
        ((omGet (if omHas po parent then po
          else omSet po parent (domFirstChild e.dom parent)) parent).getD none) ∨
      domNextSibling e.dom n =
        ((omGet (if omHas po parent then po
          else omSet po parent (domFirstChild e.dom parent)) parent).getD none))
  · rw [if_pos hcond]
    exact ⟨e, _, [], rfl, rfl, rfl⟩
  · rw [if_neg hcond]
    exact ⟨_, _, [.moveNode n], rfl, rfl, rfl⟩

theorem findSubContext_nil (cur nw : List Att) (parent : Nat) (rk : JSVal) :
    findSubContext ⟨[], cur, nw⟩ parent rk = none := rfl

theorem findSubContext_head (a : Att) (rest c2 n2 : List Att) (parent : Nat) (rk : JSVal)
    (hv : a.variant = .subC) (hk : keysMatch [.objRef parent, rk] a.keys = true) :
    findSubContext ⟨a :: rest, c2, n2⟩ parent rk = some (a, ⟨rest, c2 ++ [a], n2⟩) :=
  phFind_head .subC [.objRef parent, rk] a rest c2 n2 hv hk

theorem clearCtx_empty_any (f : Nat) (e : Eng) (c : Ctx) (r : Eng × Ctx × List Ev)
    (h : clearCtx f e c = some r) :
    ∀ e2 (c2 : Ctx), c2.attachments = [] →
      clearCtx f e2 c2 = some (removeWatcherOwner e2 c2.id, c2.withAttachments [], []) := by
  cases f with
  | zero => simp [clearCtx] at h
  | succ g =>
    cases g with
    | zero => simp [clearCtx, removeLoopIdx] at h
    | succ g2 =>
      intro e2 c2 hatt
      simp only [clearCtx, hatt, removeLoopIdx]

theorem ctxPostUpd_withAttachments (c : Ctx) (Δ : List Att) :
    ctxPostUpd (c.withAttachments Δ) = attsPostUpd Δ ++ updIds (directUpdateEvs Δ) := by
  cases c
  rfl

theorem ctxPostUpd_empty (c : Ctx) :
    ctxPostUpd (c.withAttachments []) = [] := by
  cases c
  rfl

theorem pass_replay : ∀ f : Nat,
    (∀ e cid parent st spec cur nw po e' ph' po' t1,
      applySpec f e cid parent st spec ⟨[], cur, nw⟩ po = .ok (e', ph', po', t1) →
      ∃ Δ, ph' = ⟨[], cur ++ Δ, nw ++ Δ⟩ ∧ ReplaysApply f cid parent st spec Δ) ∧
    (∀ e cid parent comp items cur nw po e' ph' po' t1,
      applyItems f e cid parent comp items ⟨[], cur, nw⟩ po = .ok (e', ph', po', t1) →
      ∃ Δ, ph' = ⟨[], cur ++ Δ, nw ++ Δ⟩ ∧ ReplaysItems f cid parent comp items Δ) ∧
    (∀ e c st po e' c' po' t1,
      c.attachments = [] →
      updateCtx f e c st po = .ok (e', c', po', t1) →
      ∃ Δc, c' = c.withAttachments Δc ∧ ReplaysUpdate f (c.withAttachments Δc) st) := by
  intro f
  induction f with
  | zero =>
    refine ⟨?_, ?_, ?_⟩
    · intro e cid parent st spec cur nw po e' ph' po' t1 h
      simp [applySpec] at h
    · intro e cid parent comp items cur nw po e' ph' po' t1 h
      simp [applyItems] at h
    · intro e c st po e' c' po' t1 _ h
      simp [updateCtx] at h
  | succ f ih =>
    obtain ⟨iha, ihi, ihu⟩ := ih
    refine ⟨?_, ?_, ?_⟩
    · -- applySpec
      intro e cid parent st spec cur nw po e' ph' po' t1 h
      simp only [applySpec] at h
      cases hsi : stateItems st with
      | some items =>
        rw [hsi] at h
        dsimp only at h
        obtain ⟨Δ, hph, hrep⟩ := ihi e cid parent spec items cur nw po e' ph' po' t1 h
        refine ⟨Δ, hph, ?_⟩
        intro e2 rest cur2 new2 po2
        obtain ⟨e2', po2', t2, heq, hq, hu⟩ := hrep e2 rest cur2 new2 po2
        refine ⟨e2', po2', t2, ?_, hq, hu⟩
        simp only [applySpec, hsi]
        exact heq
      | none =>
        rw [hsi] at h
        dsimp only at h
        cases spec with
        | textS s =>
          dsimp only at h
          simp only [findCreateOrUpdateText, phFind_nil] at h
          simp only [Except.ok.injEq, Prod.mk.injEq] at h
          obtain ⟨he, hph, hpo, ht⟩ := h
          refine ⟨[Att.textA (e.nextId + 1) [.objRef parent] e.nextId], ?_, ?_⟩
          · rw [← hph]
            rfl
          · intro e2 rest cur2 new2 po2
            refine ⟨e2, po2, [Ev.setText e.nextId s], ?_, rfl, by
              simp [updIds, attsPostUpd, attPostUpd]⟩
            simp only [applySpec, hsi]
            simp only [findCreateOrUpdateText, List.singleton_append]
            rw [phFind_head .textC [JSVal.objRef parent]
              (Att.textA (e.nextId + 1) [.objRef parent] e.nextId) rest cur2 new2 rfl
              (keysMatch_refl _)]
        | numS n =>
          dsimp only at h
          exact Except.noConfusion h
        | elemS ty props children =>
          dsimp only at h
          obtain ⟨eC, poC, hfoc⟩ := focElement_nil e cur nw po parent ty (stateKey st)
          rw [hfoc] at h
          dsimp only at h
          cases hy : applySpec f eC cid e.nextId st (.fragS children)
              ⟨[], cur ++ [.elemA (e.nextId + 1) [.str ty, .objRef parent,
                stateKey st] e.nextId],
                nw ++ [.elemA (e.nextId + 1) [.str ty, .objRef parent,
                  stateKey st] e.nextId]⟩ poC with
          | error m => rw [hy] at h; exact Except.noConfusion h
          | ok rb =>
            obtain ⟨eb, phb, pob, tb⟩ := rb
            rw [hy] at h
            dsimp only at h
            obtain ⟨Δc, hph2, repc⟩ := iha eC cid e.nextId st (.fragS children) _ _ poC
              eb phb pob tb hy
            subst hph2
            simp only [Except.ok.injEq, Prod.mk.injEq] at h
            obtain ⟨he, hph, hpo, ht⟩ := h
            refine ⟨Att.elemA (e.nextId + 1) [.str ty, .objRef parent, stateKey st]
              e.nextId :: Δc, ?_, ?_⟩
            · rw [← hph]
              simp [Phase.mk.injEq]
            · intro e2 rest cur2 new2 po2
              obtain ⟨eR, poR, tE, hfocm, hqE, huE⟩ := focElement_matched e2
                (e.nextId + 1) [.str ty, .objRef parent, stateKey st] e.nextId
                (Δc ++ rest) cur2 new2 po2 parent ty (stateKey st) (keysMatch_refl _)
              obtain ⟨e2c, po2c, t2c, heqc, hqc, huc⟩ := repc eR rest
                (cur2 ++ [Att.elemA (e.nextId + 1) [.str ty, .objRef parent,
                  stateKey st] e.nextId]) new2 poR
              refine ⟨e2c, po2c, tE ++ (match props with
                | some pid => [Ev.setProps e.nextId pid]
                | none => []) ++ t2c, ?_, ?_, ?_⟩
              · simp only [applySpec, hsi]
                rw [List.cons_append, hfocm]
                dsimp only
                rw [heqc]
                dsimp only
                cases props <;> simp
              · rw [quietTrace_append, quietTrace_append, hqE, hqc]
                cases props <;> rfl
              · rw [updIds_append, updIds_append, huE, huc, attsPostUpd_cons]
                cases props <;> simp [updIds, attPostUpd]
        | composeS cst comp rk =>
          dsimp only at h
          rw [findSubContext_nil] at h
          dsimp only at h
          cases hu : updateCtx f { e with nextId := e.nextId + 2 }
              (Ctx.mk (e.nextId + 1) parent comp []) cst (some po) with
          | error m => rw [hu] at h; exact Except.noConfusion h
          | ok ru =>
            obtain ⟨e1, sub1, po1, tu⟩ := ru
            rw [hu] at h
            dsimp only at h
            obtain ⟨Δs, hsub, repu⟩ := ihu { e with nextId := e.nextId + 2 }
              (Ctx.mk (e.nextId + 1) parent comp []) cst (some po) e1 sub1 po1 tu rfl hu
            have hw : (Ctx.mk (e.nextId + 1) parent comp []).withAttachments Δs =
                Ctx.mk (e.nextId + 1) parent comp Δs := rfl
            rw [hw] at hsub repu
            subst hsub
            simp only [Except.ok.injEq, Prod.mk.injEq] at h
            obtain ⟨he, hph, hpo, ht⟩ := h
            refine ⟨[Att.subCtx e.nextId [.objRef parent, rk]
              (Ctx.mk (e.nextId + 1) parent comp Δs)], ?_, ?_⟩
            · rw [← hph]
              simp only [phAdd, setLast_append, Ctx.withAttachments, Ctx.id,
                Ctx.parentDOM, Ctx.component]
            · intro e2 rest cur2 new2 po2
              obtain ⟨e2u, po2u, t2u, hequ, hqu, huu⟩ := repu e2 (some po2)
              refine ⟨e2u, po2u, t2u, ?_, hqu, ?_⟩
              · simp only [applySpec, hsi]
                rw [List.singleton_append, findSubContext_head
                  (Att.subCtx e.nextId [.objRef parent, rk]
                    (Ctx.mk (e.nextId + 1) parent comp Δs)) rest cur2 new2 parent rk
                  rfl (keysMatch_refl _)]
                dsimp only [Ctx.withComponent, Ctx.id, Ctx.parentDOM, Ctx.component,
                  Ctx.attachments]
                rw [hequ]
                dsimp only
                rw [setLast_append]
              · rw [huu, attsPostUpd_cons, attPostUpd_sub]
                simp [attsPostUpd]
        | listenS ev listener =>
          dsimp only at h
          simp only [findOrCreateDOMListener, phFind_nil] at h
          simp only [Except.ok.injEq, Prod.mk.injEq] at h
          obtain ⟨he, hph, hpo, ht⟩ := h
          refine ⟨[Att.listenA e.nextId [.objRef cid, .objRef parent, .str ev]
            parent ev listener], ?_, ?_⟩
          · rw [← hph]
            rfl
          · intro e2 rest cur2 new2 po2
            refine ⟨e2, po2, [], ?_, rfl, by simp [updIds, attsPostUpd, attPostUpd]⟩
            simp only [applySpec, hsi]
            simp only [findOrCreateDOMListener, List.singleton_append]
            rw [phFind_head .listenC [JSVal.objRef cid, .objRef parent, .str ev]
              (Att.listenA e.nextId [.objRef cid, .objRef parent, .str ev] parent ev listener)
              rest cur2 new2 rfl (keysMatch_refl _)]
            dsimp only
            rw [setLast_append]
        | ctxLS clty cfg rks =>
          dsimp only at h
          simp only [findOrCreateContextListener, phFind_nil] at h
          simp only [Except.ok.injEq, Prod.mk.injEq] at h
          obtain ⟨he, hph, hpo, ht⟩ := h
          refine ⟨[Att.ctxL e.nextId ([JSVal.objRef cid, JSVal.objRef parent,
            JSVal.str clty] ++ rks) parent clty cfg], ?_, ?_⟩
          · rw [← hph]
            rfl
          · intro e2 rest cur2 new2 po2
            refine ⟨e2, po2, [], ?_, rfl, by simp [updIds, attsPostUpd, attPostUpd]⟩
            simp only [applySpec, hsi]
            simp only [findOrCreateContextListener, List.singleton_append]
            rw [phFind_head .ctxlC ([JSVal.objRef cid, JSVal.objRef parent,
              JSVal.str clty] ++ rks)
              (Att.ctxL e.nextId ([JSVal.objRef cid, JSVal.objRef parent,
                JSVal.str clty] ++ rks) parent clty cfg)
              rest cur2 new2 rfl (keysMatch_refl _)]
        | fragS children =>
          cases children with
          | nil =>
            dsimp only at h
            simp only [Except.ok.injEq, Prod.mk.injEq] at h
            obtain ⟨he, hph, hpo, ht⟩ := h
            refine ⟨[], ?_, ?_⟩
            · rw [← hph]
              simp [Phase.mk.injEq]
            · intro e2 rest cur2 new2 po2
              refine ⟨e2, po2, [], ?_, rfl, rfl⟩
              simp only [applySpec, hsi]
              simp
          | cons x rest0 =>
            dsimp only at h
            cases hx : applySpec f e cid parent st x ⟨[], cur, nw⟩ po with
            | error m => rw [hx] at h; exact Except.noConfusion h
            | ok ra =>
              obtain ⟨ea, pha, poa, ta⟩ := ra
              rw [hx] at h
              dsimp only at h
              obtain ⟨Δ1, hph1, rep1⟩ := iha e cid parent st x cur nw po ea pha poa ta hx
              subst hph1
              cases hy : applySpec f ea cid parent st (.fragS rest0)
                  ⟨[], cur ++ Δ1, nw ++ Δ1⟩ poa with
              | error m => rw [hy] at h; exact Except.noConfusion h
              | ok rb =>
                obtain ⟨eb, phb, pob, tb⟩ := rb
                rw [hy] at h
                dsimp only at h
                obtain ⟨Δ2, hph2, rep2⟩ := iha ea cid parent st (.fragS rest0)
                  (cur ++ Δ1) (nw ++ Δ1) poa eb phb pob tb hy
                subst hph2
                simp only [Except.ok.injEq, Prod.mk.injEq] at h
                obtain ⟨he, hph, hpo, ht⟩ := h
                refine ⟨Δ1 ++ Δ2, ?_, ?_⟩
                · rw [← hph]
                  simp [Phase.mk.injEq]
                · intro e2 rest cur2 new2 po2
                  obtain ⟨e2a, po2a, t2a, heq1, hq1, hu1⟩ := rep1 e2 (Δ2 ++ rest) cur2 new2 po2
                  obtain ⟨e2b, po2b, t2b, heq2, hq2, hu2⟩ := rep2 e2a rest (cur2 ++ Δ1) new2 po2a
                  refine ⟨e2b, po2b, t2a ++ t2b, ?_, ?_, ?_⟩
                  · simp only [applySpec, hsi]
                    rw [List.append_assoc Δ1 Δ2 rest, heq1]
                    dsimp only
                    rw [heq2]
                    dsimp only
                    rw [List.append_assoc cur2 Δ1 Δ2]
                  · rw [quietTrace_append, hq1, hq2]
                    rfl
                  · rw [updIds_append, hu1, hu2, attsPostUpd_append]
        | lazyS fn =>
          dsimp only at h
          obtain ⟨Δ, hph, hrep⟩ := iha e cid parent st (fn st) cur nw po e' ph' po' t1 h
          refine ⟨Δ, hph, ?_⟩
          intro e2 rest cur2 new2 po2
          obtain ⟨e2', po2', t2, heq, hq, hu⟩ := hrep e2 rest cur2 new2 po2
          refine ⟨e2', po2', t2, ?_, hq, hu⟩
          simp only [applySpec, hsi]
          exact heq
        | nullS =>
          dsimp only at h
          simp only [Except.ok.injEq, Prod.mk.injEq] at h
          obtain ⟨he, hph, hpo, ht⟩ := h
          refine ⟨[], ?_, ?_⟩
          · rw [← hph]
            simp [Phase.mk.injEq]
          · intro e2 rest cur2 new2 po2
            refine ⟨e2, po2, [], ?_, rfl, rfl⟩
            simp only [applySpec, hsi]
            simp
    · -- applyItems
      intro e cid parent comp items cur nw po e' ph' po' t1 h
      cases items with
      | nil =>
        simp only [applyItems] at h
        simp only [Except.ok.injEq, Prod.mk.injEq] at h
        obtain ⟨he, hph, hpo, ht⟩ := h
        refine ⟨[], ?_, ?_⟩
        · rw [← hph]
          simp [Phase.mk.injEq]
        · intro e2 rest cur2 new2 po2
          refine ⟨e2, po2, [], ?_, rfl, rfl⟩
          simp only [applyItems]
          simp
      | cons item rest0 =>
        simp only [applyItems, findSubContext_nil] at h
        cases hu : updateCtx f { e with nextId := e.nextId + 2 }
            (Ctx.mk (e.nextId + 1) parent comp []) item (some po) with
        | error m => rw [hu] at h; exact Except.noConfusion h
        | ok ru =>
          obtain ⟨e1, sub1, po1, tu⟩ := ru
          rw [hu] at h
          obtain ⟨Δs, hsub, repu⟩ := ihu { e with nextId := e.nextId + 2 }
            (Ctx.mk (e.nextId + 1) parent comp []) item (some po) e1 sub1 po1 tu rfl hu
          have hw : (Ctx.mk (e.nextId + 1) parent comp []).withAttachments Δs =
              Ctx.mk (e.nextId + 1) parent comp Δs := rfl
          rw [hw] at hsub repu
          subst hsub
          simp only [phAdd, setLast_append] at h
          cases hr : applyItems f e1 cid parent comp rest0
              ⟨[], cur ++ [Att.subCtx e.nextId [.objRef parent, stateKey item]
                (Ctx.mk (e.nextId + 1) parent comp Δs)],
                nw ++ [Att.subCtx e.nextId [.objRef parent, stateKey item]
                  (Ctx.mk (e.nextId + 1) parent comp Δs)]⟩ po1 with
          | error m => rw [hr] at h; exact Except.noConfusion h
          | ok rr =>
            obtain ⟨eb, phb, pob, tb⟩ := rr
            rw [hr] at h
            dsimp only at h
            obtain ⟨Δr, hph2, repr⟩ := ihi e1 cid parent comp rest0 _ _ po1 eb phb pob tb hr
            subst hph2
            simp only [Except.ok.injEq, Prod.mk.injEq] at h
            obtain ⟨he, hph, hpo, ht⟩ := h
            refine ⟨Att.subCtx e.nextId [.objRef parent, stateKey item]
              (Ctx.mk (e.nextId + 1) parent comp Δs) :: Δr, ?_, ?_⟩
            · rw [← hph]
              simp [Phase.mk.injEq]
            · intro e2 rest cur2 new2 po2
              obtain ⟨e2u, po2u, t2u, hequ, hqu, huu⟩ := repu e2 (some po2)
              obtain ⟨e2r, po2r, t2r, heqr, hqr, hur⟩ := repr e2u rest
                (cur2 ++ [Att.subCtx e.nextId [.objRef parent, stateKey item]
                  (Ctx.mk (e.nextId + 1) parent comp Δs)]) new2 po2u
              refine ⟨e2r, po2r, t2u ++ t2r, ?_, ?_, ?_⟩
              · simp only [applyItems]
                rw [List.cons_append, findSubContext_head
                  (Att.subCtx e.nextId [.objRef parent, stateKey item]
                    (Ctx.mk (e.nextId + 1) parent comp Δs)) (Δr ++ rest) cur2 new2
                  parent (stateKey item) rfl (keysMatch_refl _)]
                dsimp only [Ctx.withComponent, Ctx.id, Ctx.parentDOM, Ctx.component,
                  Ctx.attachments]
                rw [hequ]
                dsimp only
                rw [setLast_append, heqr]
                dsimp only
                rw [List.append_assoc cur2
                  [Att.subCtx e.nextId [.objRef parent, stateKey item]
                    (Ctx.mk (e.nextId + 1) parent comp Δs)] Δr]
                rfl
              · rw [quietTrace_append, hqu, hqr]
                rfl
              · rw [updIds_append, huu, hur, attsPostUpd_cons, attPostUpd_sub]
    · -- updateCtx
      intro e c st po e' c' po' t1 hatt h
      simp only [updateCtx] at h
      by_cases hst : truthy st = false
      · rw [if_pos hst] at h
        cases hc : clearCtx f e c with
        | none => rw [hc] at h; exact Except.noConfusion h
        | some pr =>
          obtain ⟨e1, c1, tC⟩ := pr
          rw [hc] at h
          dsimp only at h
          obtain ⟨he1, hc1, htC, hall⟩ := clearCtx_empty f e c e1 c1 tC hatt hc
          have hany := clearCtx_empty_any f e c (e1, c1, tC) hc
          simp only [Except.ok.injEq, Prod.mk.injEq] at h
          obtain ⟨hee, hcc, hpo, htt⟩ := h
          refine ⟨[], ?_, ?_⟩
          · rw [← hcc, hc1]
          · intro e2 po2
            refine ⟨removeWatcherOwner e2 c.id, po2.getD [], [], ?_, rfl, ?_⟩
            · simp only [updateCtx]
              rw [if_pos hst]
              rw [hany e2 (c.withAttachments []) (by simp)]
              simp
            · rw [ctxPostUpd_empty]
              rfl
      · rw [if_neg hst] at h
        rw [hatt] at h
        generalize hpom : (match po with
          | some m => m
          | none => seedOrder e c) = pom at h
        cases ha : applySpec f (removeWatcherOwner e c.id) c.id c.parentDOM st
            c.component ⟨[], [], []⟩ pom with
        | error m => rw [ha] at h; exact Except.noConfusion h
        | ok ra =>
          obtain ⟨e1, ph1, po1, ta⟩ := ra
          rw [ha] at h
          dsimp only at h
          obtain ⟨Δ, hph1, repa⟩ := iha (removeWatcherOwner e c.id) c.id c.parentDOM st
            c.component [] [] pom e1 ph1 po1 ta ha
          rw [List.nil_append] at hph1
          subst hph1
          cases f with
          | zero => simp [commitPhase, removeLoopIdx] at h
          | succ g =>
            rw [commitPhase_nil] at h
            dsimp only at h
            simp only [Except.ok.injEq, Prod.mk.injEq] at h
            obtain ⟨hee, hcc, hpo, htt⟩ := h
            refine ⟨Δ, hcc.symm, ?_⟩
            intro e2 po2
            obtain ⟨e2a, po2a, t2a, heq, hq, hu⟩ := repa (removeWatcherOwner e2 c.id) []
              [] [] (match po2 with
                | some m => m
                | none => seedOrder e2 (c.withAttachments Δ))
            simp only [List.append_nil, List.nil_append] at heq
            refine ⟨(match stateObjId st with
              | some objId => addWatcher e2a objId c.id
              | none => e2a), po2a, t2a ++ directUpdateEvs Δ, ?_, ?_, ?_⟩
            · simp only [updateCtx]
              rw [if_neg hst]
              simp only [withAttachments_attachments, withAttachments_id,
                withAttachments_parentDOM, withAttachments_component]
              rw [heq]
              dsimp only
              rw [commitPhase_nil]
              dsimp only
              rw [withAttachments_withAttachments]
              rw [directAttachEvs_nil, List.nil_append]
            · rw [quietTrace_append, hq, quietTrace_directUpdateEvs]
              rfl
            · rw [updIds_append, hu, ctxPostUpd_withAttachments]


/-- C4: re-rendering is idempotent: for every parent, truthy state and
component, `render(p, s, C)` followed immediately by `update(s)` (same state
value) matches every attachment — the context's attachment tree is returned
unchanged (zero new attachments, zero removed attachments), the pass fires
no attach, remove or release events, and the update callbacks fired are
exactly one per update-handling attachment of the committed tree, in commit
order. -/
theorem c4_idempotent_rerender (f : Nat) (e0 : Eng) (parent : Nat) (st : StateV)
    (comp : Spec) (e1 : Eng) (c1 : Ctx) (om1 : OrderMap) (t1 : List Ev)
    (_hst : truthy st = true)
    (h : renderTop f e0 parent st comp = .ok (e1, c1, om1, t1)) :
    ∃ e2 om2 t2,
      updateCtx f e1 c1 st none = .ok (e2, c1, om2, t2) ∧
      quietTrace t2 = true ∧
      updIds t2 = ctxPostUpd c1 ∧
      (∀ ev ∈ t2, isNewAtt ev = false ∧ isRelease ev = false ∧
        isAttachCb ev = false ∧ isRemoveCb ev = false) := by
  simp only [renderTop] at h
  cases hc : clearCtx f { e0 with nextId := e0.nextId + 1 }
      (Ctx.mk e0.nextId parent comp []) with
  | none => rw [hc] at h; exact Except.noConfusion h
  | some pr =>
    obtain ⟨ea, ca, tc⟩ := pr
    rw [hc] at h
    dsimp only at h
    obtain ⟨hea, hca, htc, hall⟩ := clearCtx_empty f
      { e0 with nextId := e0.nextId + 1 } (Ctx.mk e0.nextId parent comp [])
      ea ca tc rfl hc
    subst hca
    cases hup : updateCtx f ea ((Ctx.mk e0.nextId parent comp []).withAttachments []) st none with
    | error m => rw [hup] at h; exact Except.noConfusion h
    | ok ru =>
      obtain ⟨eb, cb, pob, tub⟩ := ru
      rw [hup] at h
      dsimp only at h
      simp only [Except.ok.injEq, Prod.mk.injEq] at h
      obtain ⟨heb, hcb, hpo, htb⟩ := h
      obtain ⟨Δc, hcd, hrep⟩ := (pass_replay f).2.2 ea
        ((Ctx.mk e0.nextId parent comp []).withAttachments []) st none eb cb pob tub
        (by simp) hup
      rw [withAttachments_withAttachments] at hcd hrep
      subst hcb
      subst hcd
      obtain ⟨e2', po2', t2, heq, hq, hu⟩ := hrep e1 none
      refine ⟨e2', po2', t2, heq, hq, hu, ?_⟩
      intro ev hev
      rw [quietTrace, List.all_eq_true] at hq
      have hqe := hq ev hev
      simp only [Bool.and_eq_true, Bool.not_eq_true'] at hqe
      exact ⟨hqe.1.1.1, hqe.1.1.2, hqe.1.2, hqe.2⟩

/-- C4 witness: a concrete render of a div with a text child and an
update-handling context listener, then an immediate second update. -/
theorem c4_idempotent_rerender_witness :
    truthy (.obj 100) = true ∧
    ∃ e1 c1 om1 t1,
      renderTop 10 ⟨[], 1, [], []⟩ 0 (.obj 100)
          (.elemS "div" none [.textS "a",
            .ctxLS "update" ⟨true, true, true, false⟩ []]) =
        .ok (e1, c1, om1, t1) ∧
      ∃ e2 om2 t2,
        updateCtx 10 e1 c1 (.obj 100) none = .ok (e2, c1, om2, t2) ∧
        quietTrace t2 = true ∧
        updIds t2 = ctxPostUpd c1 ∧
        (∀ ev ∈ t2, isNewAtt ev = false ∧ isRelease ev = false ∧
          isAttachCb ev = false ∧ isRemoveCb ev = false) :=
  ⟨rfl, _, _, _, _, rfl,
    c4_idempotent_rerender 10 ⟨[], 1, [], []⟩ 0 (.obj 100)
      (.elemS "div" none [.textS "a", .ctxLS "update" ⟨true, true, true, false⟩ []])
      _ _ _ _ rfl rfl⟩

end Hair
